import Mathlib

/-!
Verification of the multi-strategy translation pipeline of `backend/translator.py`
(`EnhancedTranslationEngine`): slang/phonetic normalization, Levenshtein fuzzy
matching, compound splitting, regex-pattern rewriting, word-by-word fallback,
and the adaptive feedback cache.  Python strings are modelled as Lean `String`
(ASCII fragment), Python floats as `ℚ`, a throwing `db_lookup` collaborator as an
`Except Unit`-valued function, and the mutable cache as an association list that
is threaded explicitly.
-/

set_option maxRecDepth 100000

namespace DhkAlign

/-- Characters Python's `str.strip`, `str.split` and `\s` treat as whitespace
(ASCII fragment). -/
def isPySpace (c : Char) : Bool :=
  c = ' ' || c = '\t' || c = '\n' || c = '\r' || c = '\x0b' || c = '\x0c'

/-- Characters matched by `\w` in the engine's regexes (ASCII fragment). -/
def isWordChar (c : Char) : Bool :=
  c.isAlpha || c.isDigit || c = '_'

/-- `str.lower` on a character list (ASCII fragment). -/
def lowerL (l : List Char) : List Char := l.map Char.toLower

/-- `str.lower` on strings. -/
def pyLower (s : String) : String := (lowerL s.toList).asString

/-- `str.strip()` on a character list: drop whitespace from both ends. -/
def pyStripL (l : List Char) : List Char :=
  ((l.dropWhile isPySpace).reverse.dropWhile isPySpace).reverse

/-- `str.strip()` on strings. -/
def pyStrip (s : String) : String := (pyStripL s.toList).asString

/-- Helper for `str.split()`: accumulate the current word (reversed). -/
def pySplitAux : List Char → List Char → List (List Char)
  | [], acc => if acc.isEmpty then [] else [acc.reverse]
  | c :: rest, acc =>
    if isPySpace c then
      if acc.isEmpty then pySplitAux rest [] else acc.reverse :: pySplitAux rest []
    else pySplitAux rest (c :: acc)

/-- `str.split()` with no argument: split on whitespace runs, dropping empties. -/
def pySplit (s : String) : List String :=
  (pySplitAux s.toList []).map List.asString

/-- `" ".join(ws)`. -/
def joinSpace : List String → String
  | [] => ""
  | [w] => w
  | w :: ws => w ++ " " ++ joinSpace ws

/-- Fuelled worker for `str.replace`: replace every non-overlapping occurrence of
`pat`, scanning left to right.  The fuel is the string length, enough because a
non-empty `pat` consumes at least one character per step; the engine's phonetic
table only contains non-empty patterns. -/
def replaceAllF : Nat → List Char → List Char → List Char → List Char
  | 0, _, _, s => s
  | fuel + 1, pat, repl, s =>
    if !pat.isEmpty && pat.isPrefixOf s then
      repl ++ replaceAllF fuel pat repl (s.drop pat.length)
    else
      match s with
      | [] => []
      | c :: rest => c :: replaceAllF fuel pat repl rest

/-- `s.replace(pat, repl)` for non-empty `pat`. -/
def replaceAll (pat repl s : List Char) : List Char :=
  replaceAllF s.length pat repl s

/-- Python's `pat in s` substring test. -/
def containsSub (pat : List Char) : List Char → Bool
  | [] => pat.isPrefixOf []
  | c :: rest => pat.isPrefixOf (c :: rest) || containsSub pat rest

/-- Case-insensitive prefix test (`re.IGNORECASE`). -/
def prefixCI (pat s : List Char) : Bool :=
  (lowerL pat).isPrefixOf (lowerL s)

/-- Case-insensitive equality (`re.IGNORECASE`). -/
def eqCI (a b : List Char) : Bool := lowerL a == lowerL b

/-! ## Levenshtein distance

`EnhancedTranslationEngine._levenshtein_distance` computes the classical
dynamic-programming table one row at a time.  `buildRow`/`levRows` transcribe
the two nested `for` loops; `rlev` is the textbook recursive definition of the
edit distance, used as the mathematical specification. -/

/-- Inner loop of `_levenshtein_distance`: from the previous row and the left
neighbour `cur`, produce the current row.  `insertions = previous_row[j+1] + 1`,
`deletions = current_row[j] + 1`, `substitutions = previous_row[j] + (c1 != c2)`. -/
def buildRow (c1 : Char) : List Char → List Nat → Nat → List Nat
  | c2 :: rest, p0 :: p1 :: ps, cur =>
    cur :: buildRow c1 rest (p1 :: ps)
      (min (min (p1 + 1) (cur + 1)) (p0 + (if c1 = c2 then 0 else 1)))
  | _, _, cur => [cur]

/-- Outer loop of `_levenshtein_distance`: fold the rows over `s1`, starting
each row with `i + 1`. -/
def levRows (s2 : List Char) : List Char → List Nat → Nat → List Nat
  | [], prev, _ => prev
  | c1 :: rest, prev, i => levRows s2 rest (buildRow c1 s2 prev (i + 1)) (i + 1)

/-- `_levenshtein_distance` after the initial swap: early return for an empty
`s2`, otherwise run the table and read `previous_row[-1]`. -/
def levenshteinCore (s1 s2 : List Char) : Nat :=
  if s2.length = 0 then s1.length
  else (levRows s2 s1 (List.range (s2.length + 1)) 0).getLastD 0

/-- `_levenshtein_distance`: swap so that the first argument is the longer one,
then run the dynamic program. -/
def levenshteinL (s1 s2 : List Char) : Nat :=
  if s1.length < s2.length then levenshteinCore s2 s1 else levenshteinCore s1 s2

/-- `_levenshtein_distance` on strings. -/
def levenshteinS (s1 s2 : String) : Nat := levenshteinL s1.toList s2.toList

/-- Fuelled textbook Levenshtein recursion (the specification). -/
def rlevF : Nat → List Char → List Char → Nat
  | _, [], t => t.length
  | _, a :: s, [] => (a :: s).length
  | fuel + 1, a :: s, b :: t =>
    min (min (rlevF fuel s (b :: t) + 1) (rlevF fuel (a :: s) t + 1))
      (rlevF fuel s t + (if a = b then 0 else 1))
  | 0, _ :: _, _ :: _ => 0

/-- Textbook Levenshtein edit distance. -/
def rlev (s t : List Char) : Nat := rlevF (s.length + t.length) s t

/-- The row the dynamic program maintains after some prefix of `s1` has been
processed: entry `j` is the distance between `u` (the processed prefix,
reversed) and the reverse of `w ++ (first j characters of v)`. -/
def rowOf (u w : List Char) : List Char → List Nat
  | [] => [rlev u w.reverse]
  | c :: v => rlev u w.reverse :: rowOf u (w ++ [c]) v

/-- Tail of `rowOf`, used to expose its head. -/
def rowTail (u w : List Char) : List Char → List Nat
  | [] => []
  | c :: v => rowOf u (w ++ [c]) v

/-! ## Kernel-computable rational arithmetic

The Mathlib field operations on `ℚ` do not reduce in the kernel (their
instance chains block `whnf`), so the embedding uses the explicit
cross-multiplication forms below, each proven equal to the corresponding field
operation.  All denominators in the engine are natural numbers. -/

/-- `a + b` on `ℚ`, kernel-computable. -/
def qadd (a b : ℚ) : ℚ := mkRat (a.num * b.den + b.num * a.den) (a.den * b.den)

/-- `a - b` on `ℚ`, kernel-computable. -/
def qsub (a b : ℚ) : ℚ := mkRat (a.num * b.den - b.num * a.den) (a.den * b.den)

/-- `a * b` on `ℚ`, kernel-computable. -/
def qmul (a b : ℚ) : ℚ := mkRat (a.num * b.num) (a.den * b.den)

/-- `a / n` for a natural denominator, kernel-computable. -/
def qdiv (a : ℚ) (n : Nat) : ℚ := mkRat a.num (a.den * n)

/-! ## Data model

`db_lookup` returns a Python dict (`{"english": ...}`, possibly with a
`"banglish"` key), or `None`, or raises; modelled as
`Except Unit (Option LookupRes)`.  Result dicts carry extra metadata keys the
pipeline never reads (`original`, `similarity`, `split_parts`, `base_part`,
`phonetic_form`); only the keys read by callers are modelled.  Python floats
are modelled as rationals. -/

/-- A `db_lookup` result dict. -/
structure LookupRes where
  english : String
  banglish : Option String := none

deriving Repr, DecidableEq

/-- The `db_lookup` collaborator: `none` is a miss, `Except.error` a raised
exception. -/
abbrev DB : Type := String → String → Except Unit (Option LookupRes)

/-- A collaborator that never raises. -/
def pureDB (f : String → String → Option LookupRes) : DB :=
  fun q d => Except.ok (f q d)

/-- A translation result, with the keys the pipeline and its callers read. -/
structure TResult where
  translation : String
  confidence : ℚ
  method : String
  pattern : Option String := none
  feedback_count : Option Nat := none

deriving Repr, DecidableEq

/-- An adaptive-cache entry as written by `add_feedback` (or loaded from the
JSON feedback file, which is only ever written from such entries). -/
structure CacheEntry where
  translation : String
  confidence : ℚ
  method : String
  feedback_count : Nat

deriving Repr, DecidableEq

/-- The adaptive cache: a Python dict keyed by `"<query>:<direction>"`,
modelled as an association list with unique keys. -/
abbrev Cache : Type := List (String × CacheEntry)

/-- Dict read. -/
def dictGet (c : Cache) (k : String) : Option CacheEntry :=
  match c with
  | [] => none
  | (k2, v) :: rest => if k2 = k then some v else dictGet rest k

/-- Dict assignment: overwrite in place or append. -/
def dictSet (k : String) (v : CacheEntry) : Cache → Cache
  | [] => [(k, v)]
  | (k2, v2) :: rest => if k2 = k then (k, v) :: rest else (k2, v2) :: dictSet k v rest

/-- `dict.pop(k, None)`. -/
def dictPop (k : String) : Cache → Cache
  | [] => []
  | (k2, v2) :: rest => if k2 = k then rest else (k2, v2) :: dictPop k rest

/-- First-match association-list lookup (a Python dict `get`). -/
def assocGet (k : String) : List (String × String) → Option String
  | [] => none
  | (k2, v) :: rest => if k2 = k then some v else assocGet k rest

/-! ## Slang and phonetic normalization -/

/-- `_build_slang_map` (a Python dict, insertion order preserved). -/
def slangMap : List (String × String) :=
  [("gonna", "going to"), ("wanna", "want to"), ("gotta", "got to"),
   ("kinda", "kind of"), ("sorta", "sort of"), ("u", "you"),
   ("ur", "your"), ("r", "are"), ("n", "and"), ("cuz", "because"),
   ("plz", "please"), ("thx", "thanks"), ("tho", "though"),
   ("k", "ki"), ("kmn", "kemon"), ("amr", "amar"), ("tmr", "tomar"),
   ("apnr", "apnar"), ("kemon", "kemon")]

/-- `re.sub(r'[^\w]', '', word.lower())`. -/
def cleanWord (w : String) : String :=
  ((lowerL w.toList).filter isWordChar).asString

/-- `_normalize_slang`: split on whitespace; replace a token whose cleaned
form is in the slang map, pass others through unchanged; re-join with spaces. -/
def normalizeSlang (text : String) : String :=
  joinSpace ((pySplit text).map (fun w =>
    match assocGet (cleanWord w) slangMap with
    | some repl => repl
    | none => w))

/-- `_phonetic_normalize`'s ordered rule table (a Python dict, iterated in
insertion order). -/
def phoneticTable : List (List Char × List Char) :=
  [("ph".toList, "f".toList), ("th".toList, "t".toList), ("ck".toList, "k".toList),
   ("ch".toList, "c".toList), ("sh".toList, "s".toList), ("gh".toList, "g".toList),
   ("kh".toList, "k".toList), ("bh".toList, "b".toList), ("dh".toList, "d".toList),
   ("jh".toList, "j".toList), ("oo".toList, "u".toList), ("ee".toList, "i".toList)]

/-- `_phonetic_normalize`: lower-case the whole string, then apply each rule in
table order to the evolving string; the code replaces only `if old in
normalized` (the guard also feeds a change counter that logging uses). -/
def phoneticNormalizeL (text : List Char) : List Char :=
  phoneticTable.foldl
    (fun s p => if containsSub p.1 s then replaceAll p.1 p.2 s else s)
    (lowerL text)

/-- `_phonetic_normalize` on strings. -/
def phoneticNormalize (text : String) : String :=
  (phoneticNormalizeL text.toList).asString

/-- The specification's phrasing of phonetic normalization: a plain sequential
left-to-right fold of replace-all steps over the lower-cased string. -/
def phoneticFoldSpec (text : String) : String :=
  (phoneticTable.foldl (fun s p => replaceAll p.1 p.2 s) (lowerL text.toList)).asString

/-! ## Fuzzy matching -/

/-- The reference phrase list of `_fuzzy_match`. -/
def demoPhrases : List String :=
  ["kemon acho", "ami tomake bhalo bashi", "ki koro",
   "dhonnobad", "bhalo achi", "ki khaba", "kothay jachcho"]

/-- A viable fuzzy candidate. -/
structure FuzzyCand where
  phrase : String
  translation : String
  similarity : ℚ

deriving Repr, DecidableEq

/-- `_fuzzy_match`'s similarity: `1 - distance / max_len` (distance between the
lower-cased strings, `max_len` over the raw lengths), `0` on two empty strings. -/
def simScore (query phrase : String) : ℚ :=
  let distance := levenshteinS (pyLower query) (pyLower phrase)
  let maxLen := max query.length phrase.length
  if 0 < maxLen then qsub 1 (qdiv (distance : ℚ) maxLen) else 0

/-- The candidate-collection loop of `_fuzzy_match`: phrases in list order,
`db_lookup` consulted only above the threshold; its exceptions propagate. -/
def fuzzyCollect (db : DB) (query : String) (threshold : ℚ) :
    List String → Except Unit (List FuzzyCand)
  | [] => Except.ok []
  | p :: rest =>
    if threshold ≤ simScore query p then
      match db p "banglish_to_english" with
      | Except.error e => Except.error e
      | Except.ok none => fuzzyCollect db query threshold rest
      | Except.ok (some r) =>
        match fuzzyCollect db query threshold rest with
        | Except.error e => Except.error e
        | Except.ok cs =>
          Except.ok ({ phrase := p, translation := r.english,
                       similarity := simScore query p } :: cs)
    else fuzzyCollect db query threshold rest

/-- Python's `max(candidates, key=...)`: scan left to right, replace only on a
strictly larger key, so the first maximum wins. -/
def pickBest (c : FuzzyCand) : List FuzzyCand → FuzzyCand
  | [] => c
  | x :: rest => pickBest (if c.similarity < x.similarity then x else c) rest

/-- `_fuzzy_match`. -/
def fuzzyMatch (db : DB) (query : String) (threshold : ℚ) :
    Except Unit (Option TResult) :=
  match fuzzyCollect db query threshold demoPhrases with
  | Except.error e => Except.error e
  | Except.ok [] => Except.ok none
  | Except.ok (c :: cs) =>
    let best := pickBest c cs
    Except.ok (some { translation := best.translation,
                      confidence := qmul best.similarity (mkRat 9 10),
                      method := "fuzzy" })

/-! ## Word-by-word translation -/

/-- Per-token loop of `_word_by_word_translate`. -/
def wordByWordGo (db : DB) : List String → Except Unit (List String)
  | [] => Except.ok []
  | w :: ws =>
    match db w "banglish_to_english" with
    | Except.error e => Except.error e
    | Except.ok res =>
      match wordByWordGo db ws with
      | Except.error e => Except.error e
      | Except.ok rest =>
        match res with
        | some r => Except.ok (r.english :: rest)
        | none => Except.ok (w :: rest)

/-- `_word_by_word_translate` (used by the pattern stage for the base phrase). -/
def wordByWordTranslate (db : DB) (query : String) : Except Unit String :=
  match wordByWordGo db (pySplit query) with
  | Except.error e => Except.error e
  | Except.ok parts => Except.ok (joinSpace parts)

/-- Per-token loop of `_weighted_word_by_word`, counting resolved tokens. -/
def weightedGo (db : DB) : List String → Except Unit (List String × Nat)
  | [] => Except.ok ([], 0)
  | w :: ws =>
    match db w "banglish_to_english" with
    | Except.error e => Except.error e
    | Except.ok res =>
      match weightedGo db ws with
      | Except.error e => Except.error e
      | Except.ok (rest, n) =>
        match res with
        | some r => Except.ok (r.english :: rest, n + 1)
        | none => Except.ok (w :: rest, n)

/-- `_weighted_word_by_word`:
`confidence = min((translated_count / total) * 0.7, 0.85)`. -/
def weightedWordByWord (db : DB) (query : String) : Except Unit (Option TResult) :=
  let words := pySplit query
  if words.isEmpty then Except.ok none
  else
    match weightedGo db words with
    | Except.error e => Except.error e
    | Except.ok (translated, count) =>
      if 0 < count then
        Except.ok (some { translation := joinSpace translated,
                          confidence :=
                            min (qmul (qdiv (count : ℚ) words.length) (mkRat 7 10))
                              (mkRat 85 100),
                          method := "word_by_word" })
      else Except.ok none

/-! ## Compound splitting

The four compound rules are anchored regexes of the shape `(\w+)(lit|…)$` or
`(lit|…)(\w+)$` over literal alternatives, matched case-insensitively against
the whole query.  A `(\w+)` group is a non-empty run of word characters; the
greedy `(\w+)` prefers the longest stem, i.e. the shortest literal suffix, and
no string can end in two different literal alternatives of any one rule, so
each rule reduces to the splits below. -/

/-- Non-empty `\w+` run. -/
def isWordRun (l : List Char) : Bool := !l.isEmpty && l.all isWordChar

/-- Case-insensitive literal-suffix test. -/
def endsWithCI (suffix s : List Char) : Bool :=
  (lowerL suffix).isSuffixOf (lowerL s)

/-- Split for `(\w+)(lit)$` at one literal alternative: the stem must be a
non-empty word run; group values keep the original casing. -/
def splitSuffix (suffix s : List Char) : Option (String × String) :=
  if endsWithCI suffix s && isWordRun (s.take (s.length - suffix.length)) then
    some ((s.take (s.length - suffix.length)).asString,
      (s.drop (s.length - suffix.length)).asString)
  else none

/-- Split for `(lit)(\w+)$` at one literal alternative. -/
def splitPrefixAlt (p s : List Char) : Option (String × String) :=
  if prefixCI p s && isWordRun (s.drop p.length) then
    some ((s.take p.length).asString, (s.drop p.length).asString)
  else none

/-- `(\w+)(bari|ghor)$`. -/
def compoundMatch1 (q : String) : Option (String × String) :=
  match splitSuffix "bari".toList q.toList with
  | some r => some r
  | none => splitSuffix "ghor".toList q.toList

/-- `(\w+)(mach|mas)$`; the greedy stem prefers the shorter suffix `mas`. -/
def compoundMatch2 (q : String) : Option (String × String) :=
  match splitSuffix "mas".toList q.toList with
  | some r => some r
  | none => splitSuffix "mach".toList q.toList

/-- `(boro|choto|lal|nil|holud)(\w+)$`, alternatives in order (they are
pairwise prefix-free, so at most one can match). -/
def compoundMatch3 (q : String) : Option (String × String) :=
  match splitPrefixAlt "boro".toList q.toList with
  | some r => some r
  | none =>
    match splitPrefixAlt "choto".toList q.toList with
    | some r => some r
    | none =>
      match splitPrefixAlt "lal".toList q.toList with
      | some r => some r
      | none =>
        match splitPrefixAlt "nil".toList q.toList with
        | some r => some r
        | none => splitPrefixAlt "holud".toList q.toList

/-- `(\w+)(khana|gulo|ta|ti)$`; the greedy stem prefers the shortest suffix. -/
def compoundMatch4 (q : String) : Option (String × String) :=
  match splitSuffix "ta".toList q.toList with
  | some r => some r
  | none =>
    match splitSuffix "ti".toList q.toList with
    | some r => some r
    | none =>
      match splitSuffix "gulo".toList q.toList with
      | some r => some r
      | none => splitSuffix "khana".toList q.toList

/-- A compound rule: its anchored pattern (as a matcher returning the two
capture groups, the rule's `split`) and its description. -/
structure CompoundRule where
  matchFn : String → Option (String × String)
  description : String

/-- `_build_compound_rules`, in declaration order. -/
def compoundRules : List CompoundRule :=
  [{ matchFn := compoundMatch1, description := "house/building compounds" },
   { matchFn := compoundMatch2, description := "fish compounds" },
   { matchFn := compoundMatch3, description := "adjective compounds" },
   { matchFn := compoundMatch4, description := "quantity compounds" }]

/-- Per-part loop of `_compound_word_split`: a found part contributes weight
`1.0`, an unfound part (kept as-is) `0.3`; `db_lookup` exceptions propagate to
the surrounding `try`. -/
def compoundParts (db : DB) : List String → Except Unit (List String × ℚ)
  | [] => Except.ok ([], 0)
  | p :: ps =>
    match db p "banglish_to_english" with
    | Except.error e => Except.error e
    | Except.ok res =>
      match compoundParts db ps with
      | Except.error e => Except.error e
      | Except.ok (ts, c) =>
        match res with
        | some r => Except.ok (r.english :: ts, qadd c 1)
        | none => Except.ok (p :: ts, qadd c (mkRat 3 10))

/-- The `try` body of `_compound_word_split` for a matched rule (`len(parts)`
is always 2): `confidence = min(avg * 0.85, 0.9)` with
`avg = confidence_sum / 2`. -/
def compoundTry (db : DB) (parts : String × String) : Except Unit (Option TResult) :=
  match compoundParts db [parts.1, parts.2] with
  | Except.error e => Except.error e
  | Except.ok (translated, confSum) =>
    if translated.isEmpty then Except.ok none
    else
      Except.ok (some { translation := joinSpace translated,
                        confidence := min (qmul (qdiv confSum 2) (mkRat 85 100)) (mkRat 9 10),
                        method := "compound" })

/-- Rule loop of `_compound_word_split`: first match wins; an exception inside
the `try` body skips the rule (`except: continue`). -/
def compoundLoop (db : DB) (q : String) : List CompoundRule → Except Unit (Option TResult)
  | [] => Except.ok none
  | rule :: rest =>
    match rule.matchFn q with
    | none => compoundLoop db q rest
    | some parts =>
      match compoundTry db parts with
      | Except.error _ => compoundLoop db q rest
      | Except.ok none => compoundLoop db q rest
      | Except.ok (some r) => Except.ok (some r)

/-- `_compound_word_split`. -/
def compoundWordSplit (db : DB) (q : String) : Except Unit (Option TResult) :=
  compoundLoop db q compoundRules

/-! ## Pattern matching

The eight pattern rules are anchored regexes combining a lazy `(.+?)` group
(`.` does not match a newline), `\s+` separators, literal alternatives and, for
the possession rule, a starred `(\s+ache|\s+ase)*` group.  The matchers below
implement each rule's exact backtracking semantics: the lazy group takes the
shortest split whose remainder is in the tail language, and a greedy `\s+`
before a lazy group backtracks from its longest match downwards. -/

/-- Capture-group data of a pattern-rule match.  `g3` records whether the
possession rule's starred group matched at least once — the code only ever
tests `match.group(3)` for truthiness. -/
structure PatGroups where
  g1 : String
  g2 : Option String := none
  g3 : Bool := false

deriving Repr, DecidableEq

/-- All characters are question marks (`\?*$`). -/
def allQMarks (l : List Char) : Bool := l.all (fun c => c = '?')

/-- Lazy `(.+?)` search: the shortest non-empty prefix, not containing a
newline, whose complement satisfies `tm`; returns the group and the remainder. -/
def findSplit (tm : List Char → Bool) : List Char → List Char → Option (List Char × List Char)
  | _, [] => none
  | acc, c :: rest =>
    if c = '\n' then none
    else if tm rest then some (acc ++ [c], rest)
    else findSplit tm (acc ++ [c]) rest

/-- Tail language `\s+(w1|w2)\s*\?*$` of the four question rules. -/
def questionTail (w1 w2 rest : List Char) : Bool :=
  let ws := rest.takeWhile isPySpace
  let r := rest.drop ws.length
  !ws.isEmpty &&
    ((prefixCI w1 r && allQMarks ((r.drop w1.length).dropWhile isPySpace)) ||
     (prefixCI w2 r && allQMarks ((r.drop w2.length).dropWhile isPySpace)))

/-- Matcher for `^(.+?)\s+(w1|w2)\s*\?*$`. -/
def questionMatch (w1 w2 : List Char) (q : String) : Option PatGroups :=
  match findSplit (questionTail w1 w2) [] q.toList with
  | some (g1, _) => some { g1 := g1.asString }
  | none => none

/-- Tail language `\s+(na|nai|nei)$` of the negation rule. -/
def negationTail (rest : List Char) : Bool :=
  let ws := rest.takeWhile isPySpace
  let r := rest.drop ws.length
  !ws.isEmpty && (eqCI r "na".toList || eqCI r "nai".toList || eqCI r "nei".toList)

/-- Matcher for `^(.+?)\s+(na|nai|nei)$`. -/
def negationMatch (q : String) : Option PatGroups :=
  match findSplit negationTail [] q.toList with
  | some (g1, _) => some { g1 := g1.asString }
  | none => none

/-- Fuelled recognizer for `(\s+ache|\s+ase)*$`. -/
def acheStarF : Nat → List Char → Bool
  | _, [] => true
  | 0, _ :: _ => false
  | fuel + 1, rest =>
    let ws := rest.takeWhile isPySpace
    let r := rest.drop ws.length
    !ws.isEmpty &&
      ((prefixCI "ache".toList r && acheStarF fuel (r.drop 4)) ||
       (prefixCI "ase".toList r && acheStarF fuel (r.drop 3)))

/-- `(\s+ache|\s+ase)*$` recognizer (each repetition consumes at least one
character, so the length is enough fuel). -/
def acheStar (rest : List Char) : Bool := acheStarF rest.length rest

/-- Greedy `\s+` with backtracking before a lazy group: try whitespace-run
lengths from `k` (the greedy maximum) down to `1`. -/
def wsBacktrack (tm : List Char → Bool) (r : List Char) : Nat → Option (List Char × List Char)
  | 0 => none
  | k + 1 =>
    match findSplit tm [] (r.drop (k + 1)) with
    | some res => some res
    | none => wsBacktrack tm r k

/-- Matcher for `^(amar|amr)\s+(.+?)(\s+ache|\s+ase)*$`; `group(3)` is truthy
exactly when the starred group matched at least once, i.e. when the remainder
after the lazy group is non-empty. -/
def possessionMatch (q : String) : Option PatGroups :=
  let l := q.toList
  let pfx :=
    if prefixCI "amar".toList l then some 4
    else if prefixCI "amr".toList l then some 3
    else none
  match pfx with
  | none => none
  | some n =>
    let r := l.drop n
    match wsBacktrack acheStar r (r.takeWhile isPySpace).length with
    | some (g2, rest) =>
      some { g1 := (l.take n).asString, g2 := some g2.asString, g3 := !rest.isEmpty }
    | none => none

/-- Tail language `\s+(w1|w2)$` of the future-tense rules. -/
def futureTail (w1 w2 rest : List Char) : Bool :=
  let ws := rest.takeWhile isPySpace
  let r := rest.drop ws.length
  !ws.isEmpty && (eqCI r w1 || eqCI r w2)

/-- Matcher for `^(p1|p2)\s+(.+?)\s+(w1|w2)$` (the two future-tense rules;
`p1`/`p2` are prefix-free, so at most one alternative applies). -/
def futureMatch (p1 p2 w1 w2 : List Char) (q : String) : Option PatGroups :=
  let l := q.toList
  let pfx :=
    if prefixCI p1 l then some p1.length
    else if prefixCI p2 l then some p2.length
    else none
  match pfx with
  | none => none
  | some n =>
    let r := l.drop n
    match wsBacktrack (futureTail w1 w2) r (r.takeWhile isPySpace).length with
    | some (g2, _) => some { g1 := (l.take n).asString, g2 := some g2.asString }
    | none => none

/-- A pattern rule: name, anchored pattern (as a matcher returning the capture
groups), transform and fixed confidence. -/
structure PatRule where
  name : String
  matchFn : String → Option PatGroups
  transform : PatGroups → String → String
  confidence : ℚ

/-- `_build_pattern_matchers`, in declaration order, with each rule's
`transform` lambda. -/
def patternRules : List PatRule :=
  [{ name := "question_ki",
     matchFn := questionMatch "ki".toList "k".toList,
     transform := fun _ base => "what " ++ base ++ "?",
     confidence := mkRat 85 100 },
   { name := "question_keno",
     matchFn := questionMatch "keno".toList "kno".toList,
     transform := fun _ base => "why " ++ base ++ "?",
     confidence := mkRat 85 100 },
   { name := "question_kothay",
     matchFn := questionMatch "kothay".toList "kothy".toList,
     transform := fun _ base => "where " ++ base ++ "?",
     confidence := mkRat 85 100 },
   { name := "question_kokhon",
     matchFn := questionMatch "kokhon".toList "kkhon".toList,
     transform := fun _ base => "when " ++ base ++ "?",
     confidence := mkRat 85 100 },
   { name := "possession_amar",
     matchFn := possessionMatch,
     transform := fun m base => if m.g3 then "I have " ++ base else "my " ++ base,
     confidence := mkRat 80 100 },
   { name := "future_tense_korbo",
     matchFn := futureMatch "ami".toList "i".toList "korbo".toList "krbo".toList,
     transform := fun _ base => "I will " ++ base,
     confidence := mkRat 82 100 },
   { name := "future_tense_korbe",
     matchFn := futureMatch "tumi".toList "you".toList "korbe".toList "krbe".toList,
     transform := fun _ base => "you will " ++ base,
     confidence := mkRat 82 100 },
   { name := "negation_na",
     matchFn := negationMatch,
     transform := fun _ base => if pyStrip base = "" then "not" else base ++ " not",
     confidence := mkRat 75 100 }]

/-- The `try` body of `_pattern_match` for a matched rule:
`base_part = match.group(1)` (every rule has capture groups), translated via
`db_lookup`, falling back to `_word_by_word_translate`; `db_lookup` exceptions
propagate to the surrounding `try`. -/
def patternTry (db : DB) (rule : PatRule) (m : PatGroups) : Except Unit TResult :=
  match db m.g1 "banglish_to_english" with
  | Except.error e => Except.error e
  | Except.ok (some r) =>
    Except.ok { translation := rule.transform m r.english,
                confidence := rule.confidence, method := "pattern",
                pattern := some rule.name }
  | Except.ok none =>
    match wordByWordTranslate db m.g1 with
    | Except.error e => Except.error e
    | Except.ok base =>
      Except.ok { translation := rule.transform m base,
                  confidence := rule.confidence, method := "pattern",
                  pattern := some rule.name }

/-- Rule loop of `_pattern_match`: first match wins; an exception inside the
`try` body skips the rule (`except: continue`). -/
def patternLoop (db : DB) (q : String) : List PatRule → Except Unit (Option TResult)
  | [] => Except.ok none
  | rule :: rest =>
    match rule.matchFn q with
    | none => patternLoop db q rest
    | some m =>
      match patternTry db rule m with
      | Except.error _ => patternLoop db q rest
      | Except.ok r => Except.ok (some r)

/-- `_pattern_match`. -/
def patternMatch (db : DB) (q : String) : Except Unit (Option TResult) :=
  patternLoop db q patternRules

/-! ## The orchestrator -/

/-- Cache keys: `f"{query}:{direction}"`. -/
def mkKey (q d : String) : String := q ++ ":" ++ d

/-- `add_feedback`: keyed on the query verbatim; a positive report upserts an
entry with confidence 0.9 and bumps `feedback_count`, a negative one removes
the entry.  (The synchronous save to the JSON file is external I/O.) -/
def addFeedback (c : Cache) (q d t : String) (isCorrect : Bool) : Cache :=
  if isCorrect then
    dictSet (mkKey q d)
      { translation := t, confidence := mkRat 9 10, method := "user_feedback",
        feedback_count := (match dictGet c (mkKey q d) with
          | some e => e.feedback_count
          | none => 0) + 1 } c
  else dictPop (mkKey q d) c

/-- A cache hit returns `self.adaptive_cache[cache_key].copy()` with `method`
overwritten on the copy only. -/
def cacheHitResult (e : CacheEntry) : TResult :=
  { translation := e.translation, confidence := e.confidence,
    method := "adaptive_cache", feedback_count := some e.feedback_count }

/-- Steps 2–7 of `translate` (everything after the adaptive-cache check), on
the stripped query.  The reverse exact translation is
`exact_result.get('banglish', exact_result.get('english', ''))`; the phonetic
lookup only runs when the phonetic form differs from the normalized query. -/
def translateStages (db : DB) (query direction : String) : Except Unit (Option TResult) :=
  let nq := normalizeSlang query
  match db nq direction with
  | Except.error e => Except.error e
  | Except.ok (some r) =>
    if direction = "banglish_to_english" then
      Except.ok (some { translation := r.english, confidence := 1, method := "exact" })
    else
      Except.ok (some { translation := (match r.banglish with
          | some b => b
          | none => r.english), confidence := 1, method := "exact" })
  | Except.ok none =>
    let pq := phoneticNormalize nq
    match (if pq ≠ nq then db pq direction else Except.ok none) with
    | Except.error e => Except.error e
    | Except.ok (some r) =>
      Except.ok (some { translation := r.english, confidence := mkRat 95 100,
                        method := "phonetic" })
    | Except.ok none =>
      if direction ≠ "banglish_to_english" then Except.ok none
      else
        match fuzzyMatch db nq (mkRat 4 5) with
        | Except.error e => Except.error e
        | Except.ok (some r) => Except.ok (some r)
        | Except.ok none =>
          match compoundWordSplit db nq with
          | Except.error e => Except.error e
          | Except.ok (some r) => Except.ok (some r)
          | Except.ok none =>
            match patternMatch db nq with
            | Except.error e => Except.error e
            | Except.ok (some r) => Except.ok (some r)
            | Except.ok none => weightedWordByWord db nq

/-- `translate`, with the cache state threaded explicitly: an empty or
whitespace-only query is rejected; the query is stripped; the adaptive cache is
consulted under `f"{query}:{direction}"`; on a miss the staged pipeline runs.
The method never writes to the cache, so the returned cache is the input. -/
def translateS (c : Cache) (db : DB) (q d : String) :
    Except Unit (Option TResult) × Cache :=
  if q = "" ∨ pyStrip q = "" then (Except.ok none, c)
  else
    let query := pyStrip q
    match dictGet c (mkKey query d) with
    | some e => (Except.ok (some (cacheHitResult e)), c)
    | none => (translateStages db query d, c)

/-- `translate` (result component). -/
def translate (c : Cache) (db : DB) (q d : String) : Except Unit (Option TResult) :=
  (translateS c db q d).1

/-! ## The dummy collaborator -/

/-- `_dummy_lookup`'s translation table. -/
def dummyTranslations : List (String × String) :=
  [("kemon acho", "how are you"), ("ami tomake bhalo bashi", "I love you"),
   ("ki koro", "what are you doing"), ("dhonnobad", "thank you"),
   ("bhalo achi", "I am fine"), ("tumi", "you"), ("ami", "I"),
   ("bari", "home"), ("mach", "fish"), ("boro", "big"), ("choto", "small")]

/-- `_dummy_lookup`: case-insensitive, only answers the forward direction. -/
def dummyLookup (q d : String) : Option LookupRes :=
  match assocGet (pyLower q) dummyTranslations with
  | some r => if d = "banglish_to_english" then some { english := r } else none
  | none => none

/-- A collaborator whose every call raises. -/
def throwingDB : DB := fun _ _ => Except.error ()

/-! ## Specification-side stage functions

The `...Spec...` functions below are written from the claims' wording, not
from the code, and appear only on the right-hand side of refinement theorems
against a pure (non-throwing) collaborator `pureDB f`.  `wordByWordFn`,
`patternG1Apply` and `patternG1Fn` are code-side companions used to state
those refinements. -/

/-- Pure word-by-word translation: each whitespace token is replaced by its
dictionary translation when found and kept as-is otherwise, space-joined. -/
def wordByWordFn (f : String → String → Option LookupRes) (q : String) : String :=
  joinSpace ((pySplit q).map (fun w =>
    match f w "banglish_to_english" with
    | some r => r.english
    | none => w))

/-- Specification reading of one compound-rule application (claim C6). -/
def compoundSpecApply (f : String → String → Option LookupRes)
    (parts : String × String) : TResult :=
  let t1 := match f parts.1 "banglish_to_english" with
    | some r => (r.english, (1 : ℚ))
    | none => (parts.1, mkRat 3 10)
  let t2 := match f parts.2 "banglish_to_english" with
    | some r => (r.english, (1 : ℚ))
    | none => (parts.2, mkRat 3 10)
  { translation := t1.1 ++ " " ++ t2.1,
    confidence := min (mkRat 9 10) (qmul (qdiv (qadd t1.2 t2.2) 2) (mkRat 85 100)),
    method := "compound" }

/-- Specification reading of the compound stage (claim C6). -/
def compoundSpecFn (f : String → String → Option LookupRes) (q : String) :
    Option TResult :=
  (compoundRules.findSome? (fun rule => rule.matchFn q)).map (compoundSpecApply f)

/-- The capture group claim C4 designates as the base phrase: the possession
and future-tense rules' transforms are parameterized by their second group,
every other rule's by its first. -/
def specBase (rule : PatRule) (m : PatGroups) : String :=
  if rule.name = "possession_amar" ∨ rule.name = "future_tense_korbo" ∨
      rule.name = "future_tense_korbe" then (m.g2).getD m.g1
  else m.g1

/-- Specification reading of one pattern-rule application (claim C4): the
designated base-phrase group, resolved via the dictionary or else word-by-word,
run through the rule's transform, at the rule's fixed confidence. -/
def patternSpecApply (f : String → String → Option LookupRes) (rule : PatRule)
    (m : PatGroups) : TResult :=
  let baseT := match f (specBase rule m) "banglish_to_english" with
    | some r => r.english
    | none => wordByWordFn f (specBase rule m)
  { translation := rule.transform m baseT, confidence := rule.confidence,
    method := "pattern", pattern := some rule.name }

/-- Specification reading of the pattern stage (claim C4): first matching rule
in declaration order. -/
def patternSpecFn (f : String → String → Option LookupRes) (q : String) :
    Option TResult :=
  (patternRules.findSome? (fun rule => (rule.matchFn q).map (fun m => (rule, m)))).map
    (fun p => patternSpecApply f p.1 p.2)

/-- What the code actually does per pattern rule (amended claim C4):
`base_part = match.group(1)` for every rule. -/
def patternG1Apply (f : String → String → Option LookupRes) (rule : PatRule)
    (m : PatGroups) : TResult :=
  let baseT := match f m.g1 "banglish_to_english" with
    | some r => r.english
    | none => wordByWordFn f m.g1
  { translation := rule.transform m baseT, confidence := rule.confidence,
    method := "pattern", pattern := some rule.name }

/-- Declarative form of the pattern stage with group 1 as the base phrase
(amended claim C4). -/
def patternG1Fn (f : String → String → Option LookupRes) (q : String) :
    Option TResult :=
  (patternRules.findSome? (fun rule => (rule.matchFn q).map (fun m => (rule, m)))).map
    (fun p => patternG1Apply f p.1 p.2)

/-- Specification reading of the fuzzy candidate set (claim C5): reference
phrases whose similarity clears the threshold and that resolve via the
dictionary, in reference order, each carrying its similarity. -/
def fuzzySpecCands (f : String → String → Option LookupRes) (q : String) (θ : ℚ) :
    List FuzzyCand :=
  demoPhrases.filterMap (fun p =>
    if θ ≤ simScore q p then
      match f p "banglish_to_english" with
      | some r => some { phrase := p, translation := r.english,
                         similarity := simScore q p }
      | none => none
    else none)

/-- Specification reading of the fuzzy stage (claim C5). -/
def fuzzySpecFn (f : String → String → Option LookupRes) (q : String) (θ : ℚ) :
    Option TResult :=
  match fuzzySpecCands f q θ with
  | [] => none
  | c :: cs =>
    some { translation := (pickBest c cs).translation,
           confidence := qmul (pickBest c cs).similarity (mkRat 9 10),
           method := "fuzzy" }

/-! ## Dictionary and strip lemmas -/

-- Decidable equality for `Except` results, used to evaluate the pipeline on
-- concrete inputs.
deriving instance DecidableEq for Except

theorem rlevF_stable : ∀ (fuel : Nat) (s t : List Char),
    s.length + t.length ≤ fuel → rlevF fuel s t = rlev s t := by
  intro fuel
  induction fuel using Nat.strong_induction_on with
  | _ fuel ih =>
    intro s t hle
    match s, t with
    | [], t => cases fuel <;> simp [rlevF, rlev]
    | a :: s, [] => cases fuel <;> simp [rlevF, rlev]
    | a :: s, b :: t =>
      match fuel, hle with
      | fuel + 1, hle =>
        simp only [List.length_cons] at hle
        have h1 : s.length + (b :: t).length ≤ fuel := by simp; omega
        have h2 : (a :: s).length + t.length ≤ fuel := by simp; omega
        have h3 : s.length + t.length ≤ fuel := by omega
        have g1 : s.length + (b :: t).length ≤ s.length + t.length + 1 := by
          simp only [List.length_cons]; omega
        have g2 : (a :: s).length + t.length ≤ s.length + t.length + 1 := by
          simp only [List.length_cons]; omega
        have g3 : s.length + t.length ≤ s.length + t.length + 1 := by omega
        have hlt : fuel < fuel + 1 := Nat.lt_succ_self fuel
        have hlt2 : s.length + t.length + 1 < (a :: s).length + (b :: t).length := by
          simp; omega
        rw [show rlev (a :: s) (b :: t) =
            rlevF ((a :: s).length + (b :: t).length) (a :: s) (b :: t) from rfl]
        simp only [List.length_cons]
        rw [show s.length + 1 + (t.length + 1) = (s.length + t.length + 1) + 1 by omega]
        simp only [rlevF]
        rw [ih fuel hlt s (b :: t) h1, ih fuel hlt (a :: s) t h2, ih fuel hlt s t h3]
        rw [ih (s.length + t.length + 1) (by simp; omega) s (b :: t) g1,
            ih (s.length + t.length + 1) (by simp; omega) (a :: s) t g2,
            ih (s.length + t.length + 1) (by simp; omega) s t g3]

@[simp] theorem rlev_nil_left (t : List Char) : rlev [] t = t.length := by
  cases t <;> simp [rlev, rlevF]

@[simp] theorem rlev_nil_right (s : List Char) : rlev s [] = s.length := by
  cases s <;> simp [rlev, rlevF]

theorem rlev_cons_cons (a b : Char) (s t : List Char) :
    rlev (a :: s) (b :: t) =
      min (min (rlev s (b :: t) + 1) (rlev (a :: s) t + 1))
        (rlev s t + (if a = b then 0 else 1)) := by
  show rlevF ((a :: s).length + (b :: t).length) (a :: s) (b :: t) = _
  simp only [List.length_cons]
  rw [show s.length + 1 + (t.length + 1) = (s.length + t.length + 1) + 1 by omega]
  simp only [rlevF]
  rw [rlevF_stable _ _ _ (by simp; omega), rlevF_stable _ _ _ (by simp; omega),
    rlevF_stable _ _ _ (by omega)]

theorem rlev_le_max : ∀ (s t : List Char), rlev s t ≤ max s.length t.length := by
  intro s
  induction s with
  | nil => intro t; simp
  | cons a s ih =>
    intro t
    cases t with
    | nil => simp
    | cons b t =>
      rw [rlev_cons_cons]
      have h2 := ih t
      have hc : (if a = b then 0 else 1) ≤ 1 := by split <;> simp
      simp only [List.length_cons] at *
      omega

set_option maxHeartbeats 6400000 in
theorem rlev_snoc (a b : Char) : ∀ (n : Nat) (p q : List Char), p.length + q.length ≤ n →
    rlev (p ++ [a]) (q ++ [b]) =
      min (min (rlev p (q ++ [b]) + 1) (rlev (p ++ [a]) q + 1))
        (rlev p q + (if a = b then 0 else 1)) := by
  intro n
  induction n using Nat.strong_induction_on with
  | _ n ih =>
    intro p q hle
    match p, q with
    | [], [] => simp [rlev_cons_cons]
    | [], y :: q1 =>
      have hq : List.length ([] : List Char) + q1.length < n := by
        simp only [List.length_nil, List.length_cons] at hle ⊢; omega
      have IH := ih _ hq [] q1 (le_refl _)
      simp only [List.nil_append, List.cons_append] at IH ⊢
      simp only [rlev_cons_cons, rlev_nil_left, List.length_cons, List.length_append,
        List.length_nil] at IH ⊢
      omega
    | x :: p1, [] =>
      have hp : p1.length + List.length ([] : List Char) < n := by
        simp only [List.length_nil, List.length_cons] at hle ⊢; omega
      have IH := ih _ hp p1 [] (le_refl _)
      simp only [List.nil_append, List.cons_append] at IH ⊢
      simp only [rlev_cons_cons, rlev_nil_right, List.length_cons, List.length_append,
        List.length_nil] at IH ⊢
      omega
    | x :: p1, y :: q1 =>
      have h1 : p1.length + (y :: q1).length < n := by
        simp only [List.length_cons] at hle ⊢; omega
      have h2 : (x :: p1).length + q1.length < n := by
        simp only [List.length_cons] at hle ⊢; omega
      have h3 : p1.length + q1.length < n := by
        simp only [List.length_cons] at hle ⊢; omega
      have IH1 := ih _ h1 p1 (y :: q1) (le_refl _)
      have IH2 := ih _ h2 (x :: p1) q1 (le_refl _)
      have IH3 := ih _ h3 p1 q1 (le_refl _)
      simp only [List.cons_append] at IH1 IH2 IH3 ⊢
      rw [rlev_cons_cons x y (p1 ++ [a]) (q1 ++ [b])]
      rw [IH1, IH2, IH3]
      rw [rlev_cons_cons x y p1 (q1 ++ [b]), rlev_cons_cons x y (p1 ++ [a]) q1,
        rlev_cons_cons x y p1 q1]
      generalize rlev p1 (y :: (q1 ++ [b])) = A1
      generalize rlev (p1 ++ [a]) (y :: q1) = A2
      generalize rlev p1 (y :: q1) = A3
      generalize rlev (x :: p1) (q1 ++ [b]) = B1
      generalize rlev (x :: (p1 ++ [a])) q1 = B2
      generalize rlev (x :: p1) q1 = B3
      generalize rlev p1 (q1 ++ [b]) = C1
      generalize rlev (p1 ++ [a]) q1 = C2
      generalize rlev p1 q1 = C3
      generalize (if a = b then (0 : Nat) else 1) = c
      generalize (if x = y then (0 : Nat) else 1) = e
      simp only [← min_add_add_right]
      simp [Nat.min_assoc, Nat.min_comm, Nat.min_left_comm, Nat.add_comm,
        Nat.add_left_comm, Nat.add_assoc]

theorem rlev_symm : ∀ (n : Nat) (s t : List Char), s.length + t.length ≤ n →
    rlev s t = rlev t s := by
  intro n
  induction n using Nat.strong_induction_on with
  | _ n ih =>
    intro s t hle
    match s, t with
    | [], t => simp
    | a :: s, [] => simp
    | a :: s, b :: t =>
      have h1 : s.length + (b :: t).length < n := by
        simp only [List.length_cons] at hle ⊢; omega
      have h2 : (a :: s).length + t.length < n := by
        simp only [List.length_cons] at hle ⊢; omega
      have h3 : s.length + t.length < n := by
        simp only [List.length_cons] at hle ⊢; omega
      have IH1 := ih _ h1 s (b :: t) (le_refl _)
      have IH2 := ih _ h2 (a :: s) t (le_refl _)
      have IH3 := ih _ h3 s t (le_refl _)
      rw [rlev_cons_cons a b, rlev_cons_cons b a, IH1, IH2, IH3]
      have hc : (if a = b then (0 : Nat) else 1) = (if b = a then 0 else 1) := by
        by_cases h : a = b
        · rw [if_pos h, if_pos h.symm]
        · rw [if_neg h, if_neg (fun hh => h hh.symm)]
      omega

theorem rlev_reverse : ∀ (n : Nat) (s t : List Char), s.length + t.length ≤ n →
    rlev s.reverse t.reverse = rlev s t := by
  intro n
  induction n using Nat.strong_induction_on with
  | _ n ih =>
    intro s t hle
    match s, t with
    | [], t => simp
    | a :: s, [] => simp
    | a :: s, b :: t =>
      have h1 : s.length + (b :: t).length < n := by
        simp only [List.length_cons] at hle ⊢; omega
      have h2 : (a :: s).length + t.length < n := by
        simp only [List.length_cons] at hle ⊢; omega
      have h3 : s.length + t.length < n := by
        simp only [List.length_cons] at hle ⊢; omega
      have IH1 := ih _ h1 s (b :: t) (le_refl _)
      have IH2 := ih _ h2 (a :: s) t (le_refl _)
      have IH3 := ih _ h3 s t (le_refl _)
      rw [List.reverse_cons, List.reverse_cons]
      rw [rlev_snoc a b (s.reverse.length + t.reverse.length) s.reverse t.reverse (le_refl _)]
      rw [← List.reverse_cons b t, IH1]
      rw [← List.reverse_cons a s, IH2, IH3]
      rw [rlev_cons_cons a b]

theorem rowOf_head (u w v : List Char) :
    rowOf u w v = rlev u w.reverse :: rowTail u w v := by
  cases v <;> rfl

theorem buildRow_rowOf (c1 : Char) :
    ∀ (v w u : List Char),
      buildRow c1 v (rowOf u w v) (rlev (c1 :: u) w.reverse) = rowOf (c1 :: u) w v := by
  intro v
  induction v with
  | nil => intro w u; rfl
  | cons c2 rest ih =>
    intro w u
    have hnext : min (min (rlev u (w ++ [c2]).reverse + 1) (rlev (c1 :: u) w.reverse + 1))
        (rlev u w.reverse + (if c1 = c2 then 0 else 1)) =
        rlev (c1 :: u) (w ++ [c2]).reverse := by
      have hrev : (w ++ [c2]).reverse = c2 :: w.reverse := by simp
      rw [hrev, rlev_cons_cons c1 c2 u w.reverse]
    calc buildRow c1 (c2 :: rest) (rowOf u w (c2 :: rest)) (rlev (c1 :: u) w.reverse)
        = buildRow c1 (c2 :: rest)
            (rlev u w.reverse :: rlev u (w ++ [c2]).reverse :: rowTail u (w ++ [c2]) rest)
            (rlev (c1 :: u) w.reverse) := by
          rw [show rowOf u w (c2 :: rest) = rlev u w.reverse :: rowOf u (w ++ [c2]) rest
            from rfl, rowOf_head u (w ++ [c2]) rest]
      _ = rlev (c1 :: u) w.reverse ::
            buildRow c1 rest (rlev u (w ++ [c2]).reverse :: rowTail u (w ++ [c2]) rest)
              (min (min (rlev u (w ++ [c2]).reverse + 1) (rlev (c1 :: u) w.reverse + 1))
                (rlev u w.reverse + (if c1 = c2 then 0 else 1))) := rfl
      _ = rlev (c1 :: u) w.reverse ::
            buildRow c1 rest (rowOf u (w ++ [c2]) rest) (rlev (c1 :: u) (w ++ [c2]).reverse) := by
          rw [hnext, ← rowOf_head u (w ++ [c2]) rest]
      _ = rlev (c1 :: u) w.reverse :: rowOf (c1 :: u) (w ++ [c2]) rest := by
          rw [ih (w ++ [c2]) u]
      _ = rowOf (c1 :: u) w (c2 :: rest) := rfl

theorem levRows_rowOf (s2 : List Char) :
    ∀ (l u : List Char),
      levRows s2 l (rowOf u [] s2) u.length = rowOf (l.reverse ++ u) [] s2 := by
  intro l
  induction l with
  | nil => intro u; simp [levRows]
  | cons c1 rest ih =>
    intro u
    show levRows s2 rest (buildRow c1 s2 (rowOf u [] s2) (u.length + 1)) (u.length + 1) = _
    have hb : buildRow c1 s2 (rowOf u [] s2) (u.length + 1) = rowOf (c1 :: u) [] s2 := by
      have h := buildRow_rowOf c1 s2 [] u
      simpa using h
    rw [hb]
    have h2 := ih (c1 :: u)
    simp only [List.length_cons] at h2
    rw [h2]
    simp [List.append_assoc]

theorem rowOf_getLastD : ∀ (v u w : List Char),
    (rowOf u w v).getLastD 0 = rlev u (w ++ v).reverse := by
  intro v
  induction v with
  | nil => intro u w; simp [rowOf]
  | cons c rest ih =>
    intro u w
    have hne : rowOf u (w ++ [c]) rest ≠ [] := by cases rest <;> simp [rowOf]
    show (rlev u w.reverse :: rowOf u (w ++ [c]) rest).getLastD 0 = _
    rw [List.getLastD_cons]
    have hdflt : (rowOf u (w ++ [c]) rest).getLastD (rlev u w.reverse) =
        (rowOf u (w ++ [c]) rest).getLastD 0 := by
      cases hl : rowOf u (w ++ [c]) rest with
      | nil => exact absurd hl hne
      | cons z zs => rw [List.getLastD_cons, List.getLastD_cons]
    rw [hdflt, ih u (w ++ [c])]
    have : (w ++ [c]) ++ rest = w ++ (c :: rest) := by simp
    rw [this]

theorem rowOf_nil_left : ∀ (v w : List Char),
    rowOf [] w v = List.range' w.length (v.length + 1) := by
  intro v
  induction v with
  | nil =>
    intro w
    simp [rowOf, List.range'_one]
  | cons c rest ih =>
    intro w
    show rlev [] w.reverse :: rowOf [] (w ++ [c]) rest = _
    rw [ih (w ++ [c])]
    have h1 : rlev [] w.reverse = w.length := by simp
    have h2 : (w ++ [c]).length = w.length + 1 := by simp
    rw [h1, h2]
    simp only [List.length_cons]
    rw [List.range'_succ, List.range'_succ, List.range'_succ]

theorem range_eq_rowOf (s2 : List Char) :
    List.range (s2.length + 1) = rowOf [] [] s2 := by
  rw [rowOf_nil_left s2 [], List.range_eq_range']
  rfl

theorem levenshteinCore_eq_rlev (s1 s2 : List Char) : levenshteinCore s1 s2 = rlev s1 s2 := by
  unfold levenshteinCore
  by_cases h : s2.length = 0
  · rw [if_pos h]
    have h2 : s2 = [] := List.length_eq_zero.mp h
    subst h2; simp
  · rw [if_neg h, range_eq_rowOf]
    have h0 : levRows s2 s1 (rowOf [] [] s2) 0 =
        rowOf (s1.reverse ++ []) [] s2 := levRows_rowOf s2 s1 []
    rw [h0, rowOf_getLastD]
    simp only [List.append_nil, List.nil_append]
    exact rlev_reverse (s1.length + s2.length) s1 s2 (le_refl _)

/-- The engine's dynamic program computes the textbook Levenshtein distance. -/
theorem levenshteinL_eq_rlev (s1 s2 : List Char) : levenshteinL s1 s2 = rlev s1 s2 := by
  unfold levenshteinL
  by_cases h : s1.length < s2.length
  · rw [if_pos h, levenshteinCore_eq_rlev]
    exact rlev_symm (s2.length + s1.length) s2 s1 (le_refl _)
  · rw [if_neg h, levenshteinCore_eq_rlev]

theorem levenshteinS_eq_rlev (s1 s2 : String) :
    levenshteinS s1 s2 = rlev s1.toList s2.toList :=
  levenshteinL_eq_rlev s1.toList s2.toList

theorem levenshteinS_le_max (s1 s2 : String) :
    levenshteinS s1 s2 ≤ max s1.length s2.length := by
  rw [levenshteinS_eq_rlev]
  exact rlev_le_max s1.toList s2.toList

theorem qadd_eq (a b : ℚ) : qadd a b = a + b := by
  have ha : (a.den : ℚ) ≠ 0 := Nat.cast_ne_zero.mpr a.den_nz
  have hb : (b.den : ℚ) ≠ 0 := Nat.cast_ne_zero.mpr b.den_nz
  rw [qadd, Rat.mkRat_eq_div]
  push_cast
  conv_rhs => rw [← Rat.num_div_den a, ← Rat.num_div_den b]
  field_simp

theorem qsub_eq (a b : ℚ) : qsub a b = a - b := by
  have ha : (a.den : ℚ) ≠ 0 := Nat.cast_ne_zero.mpr a.den_nz
  have hb : (b.den : ℚ) ≠ 0 := Nat.cast_ne_zero.mpr b.den_nz
  rw [qsub, Rat.mkRat_eq_div]
  push_cast
  conv_rhs => rw [← Rat.num_div_den a, ← Rat.num_div_den b]
  field_simp
  ring

theorem qmul_eq (a b : ℚ) : qmul a b = a * b := by
  have ha : (a.den : ℚ) ≠ 0 := Nat.cast_ne_zero.mpr a.den_nz
  have hb : (b.den : ℚ) ≠ 0 := Nat.cast_ne_zero.mpr b.den_nz
  rw [qmul, Rat.mkRat_eq_div]
  push_cast
  conv_rhs => rw [← Rat.num_div_den a, ← Rat.num_div_den b]
  field_simp

theorem qdiv_eq (a : ℚ) (n : Nat) : qdiv a n = a / n := by
  by_cases hn : n = 0
  · subst hn
    simp [qdiv]
  · have ha : (a.den : ℚ) ≠ 0 := Nat.cast_ne_zero.mpr a.den_nz
    have hn2 : ((n : ℚ)) ≠ 0 := Nat.cast_ne_zero.mpr hn
    rw [qdiv, Rat.mkRat_eq_div]
    push_cast
    conv_rhs => rw [← Rat.num_div_den a]
    field_simp

theorem dictGet_dictSet_self (k : String) (v : CacheEntry) :
    ∀ c : Cache, dictGet (dictSet k v c) k = some v := by
  intro c
  induction c with
  | nil => simp [dictSet, dictGet]
  | cons p rest ih =>
    obtain ⟨k2, v2⟩ := p
    by_cases h : k2 = k
    · simp [dictSet, dictGet, h]
    · simp [dictSet, dictGet, h, ih]

theorem dictGet_dictSet_ne (k k2 : String) (v : CacheEntry) (hne : k2 ≠ k) :
    ∀ c : Cache, dictGet (dictSet k v c) k2 = dictGet c k2 := by
  intro c
  induction c with
  | nil =>
    simp only [dictSet, dictGet]
    rw [if_neg (fun h => hne h.symm)]
  | cons p rest ih =>
    obtain ⟨k3, v3⟩ := p
    by_cases h : k3 = k
    · subst h
      simp only [dictSet, if_pos rfl, dictGet]
      rw [if_neg (fun h => hne h.symm), if_neg (fun h => hne h.symm)]
    · simp only [dictSet, if_neg h, dictGet]
      by_cases h2 : k3 = k2
      · rw [if_pos h2, if_pos h2]
      · rw [if_neg h2, if_neg h2, ih]

theorem dropWhile_idem (p : Char → Bool) (l : List Char) :
    (l.dropWhile p).dropWhile p = l.dropWhile p := by
  induction l with
  | nil => simp
  | cons a l ih =>
    by_cases h : p a
    · simp [List.dropWhile_cons, h, ih]
    · simp [List.dropWhile_cons, h]

theorem dropWhile_prefix_self (p : Char → Bool) :
    ∀ {X l : List Char}, X <+: l → l.dropWhile p = l → X.dropWhile p = X := by
  intro X l hX hl
  cases X with
  | nil => simp
  | cons x X2 =>
    obtain ⟨t, ht⟩ := hX
    have hx : p x = false := by
      subst ht
      rw [List.cons_append, List.dropWhile_cons] at hl
      by_cases h : p x = true
      · rw [if_pos h] at hl
        have hlen := (List.dropWhile_suffix (l := X2 ++ t) p).length_le
        rw [hl] at hlen
        simp at hlen
      · simpa using h
    rw [List.dropWhile_cons, hx]
    simp

theorem pyStripL_idem (l : List Char) : pyStripL (pyStripL l) = pyStripL l := by
  unfold pyStripL
  set A := l.dropWhile isPySpace with hA
  set B := A.reverse.dropWhile isPySpace with hB
  have hBsuf : B <:+ A.reverse := List.dropWhile_suffix isPySpace
  have hBrevpre : B.reverse <+: A := by
    have h2 : B.reverse <+: A.reverse.reverse := List.reverse_prefix.mpr hBsuf
    simpa using h2
  have hAdrop : A.dropWhile isPySpace = A := by
    rw [hA]
    exact dropWhile_idem isPySpace l
  have h1 : B.reverse.dropWhile isPySpace = B.reverse :=
    dropWhile_prefix_self isPySpace hBrevpre hAdrop
  rw [h1]
  have h2 : B.reverse.reverse.dropWhile isPySpace = B := by
    rw [List.reverse_reverse]
    rw [hB]
    exact dropWhile_idem isPySpace A.reverse
  rw [h2]

theorem pyStrip_idem (s : String) : pyStrip (pyStrip s) = pyStrip s := by
  unfold pyStrip
  rw [List.toList_asString, pyStripL_idem]

/-! ## Claim support lemmas -/

theorem pyStrip_empty : pyStrip "" = "" := rfl

theorem translate_guard_false {q : String} (hq : pyStrip q ≠ "") :
    ¬(q = "" ∨ pyStrip q = "") := by
  intro h
  cases h with
  | inl h1 => exact hq (h1 ▸ pyStrip_empty)
  | inr h2 => exact hq h2

theorem toList_mkKey (a b : String) :
    (mkKey a b).toList = a.toList ++ ':' :: b.toList := by
  show (a ++ ":" ++ b).data = a.data ++ ':' :: b.data
  rw [String.data_append, String.data_append, List.append_assoc]
  rfl

theorem append_colon_inj : ∀ (a : List Char), ∀ (c b d : List Char),
    (':' ∉ a) → (':' ∉ c) → a ++ ':' :: b = c ++ ':' :: d → a = c ∧ b = d := by
  intro a
  induction a with
  | nil =>
    intro c b d _ hc h
    cases c with
    | nil => simpa using h
    | cons y c2 =>
      rw [List.nil_append, List.cons_append] at h
      have hy : ':' = y := (List.cons.injEq _ _ _ _).mp h |>.1
      exact absurd (hy ▸ List.mem_cons_self y c2) hc
  | cons x a2 ih =>
    intro c b d ha hc h
    cases c with
    | nil =>
      rw [List.cons_append, List.nil_append] at h
      have hx : x = ':' := (List.cons.injEq _ _ _ _).mp h |>.1
      exact absurd (hx ▸ List.mem_cons_self x a2) ha
    | cons y c2 =>
      rw [List.cons_append, List.cons_append] at h
      obtain ⟨hxy, htail⟩ := (List.cons.injEq _ _ _ _).mp h
      have ha2 : ':' ∉ a2 := fun hmem => ha (List.mem_cons_of_mem x hmem)
      have hc2 : ':' ∉ c2 := fun hmem => hc (List.mem_cons_of_mem y hmem)
      obtain ⟨h1, h2⟩ := ih c2 b d ha2 hc2 htail
      exact ⟨by rw [hxy, h1], h2⟩

theorem mkKey_strip_ne (q d q2 d2 : String)
    (hq : ':' ∉ q.toList) (hd : ':' ∉ d.toList)
    (hstrip : pyStrip q ≠ q) : mkKey (pyStrip q2) d2 ≠ mkKey q d := by
  intro h
  have htl := congrArg String.toList h
  rw [toList_mkKey, toList_mkKey] at htl
  have hcnt := congrArg (List.count ':') htl
  rw [List.count_append, List.count_append] at hcnt
  rw [List.count_cons, List.count_cons] at hcnt
  rw [List.count_eq_zero.mpr hq, List.count_eq_zero.mpr hd] at hcnt
  have ha : ':' ∉ (pyStrip q2).toList := by
    rw [← List.count_eq_zero]
    omega
  obtain ⟨h1, _⟩ := append_colon_inj (pyStrip q2).toList q.toList d2.toList d.toList ha hq htl
  have hstr : pyStrip q2 = q := String.ext h1
  have : pyStrip q = q := by
    conv_lhs => rw [← hstr]
    rw [pyStrip_idem, hstr]
  exact hstrip this

theorem compoundLoop_isOk (db : DB) (q : String) :
    ∀ rules : List CompoundRule, ∃ o, compoundLoop db q rules = Except.ok o := by
  intro rules
  induction rules with
  | nil => exact ⟨none, rfl⟩
  | cons rule rest ih =>
    cases hm : rule.matchFn q with
    | none => simpa [compoundLoop, hm] using ih
    | some parts =>
      cases ht : compoundTry db parts with
      | error e => simpa [compoundLoop, hm, ht] using ih
      | ok o =>
        cases o with
        | none => simpa [compoundLoop, hm, ht] using ih
        | some r => exact ⟨some r, by simp [compoundLoop, hm, ht]⟩

theorem patternLoop_isOk (db : DB) (q : String) :
    ∀ rules : List PatRule, ∃ o, patternLoop db q rules = Except.ok o := by
  intro rules
  induction rules with
  | nil => exact ⟨none, rfl⟩
  | cons rule rest ih =>
    cases hm : rule.matchFn q with
    | none => simpa [patternLoop, hm] using ih
    | some m =>
      cases ht : patternTry db rule m with
      | error e => simpa [patternLoop, hm, ht] using ih
      | ok r => exact ⟨some r, by simp [patternLoop, hm, ht]⟩

/-! ## Claims -/

/-- C1 (counterexample): the claim says a `db_lookup` exception at the exact
stage is caught at the call site and treated as a miss; in fact, with a
collaborator whose every call raises, `translate` itself raises on the query
"kemon acho" (empty cache, forward direction), so the caller does not observe
a result-or-none. -/
theorem c1_counterexample :
    translate [] throwingDB "kemon acho" "banglish_to_english" = Except.error () := by
  decide

/-- C1 (amended): `db_lookup` exceptions are caught only inside the compound
and pattern stages: there a raising rule is skipped with the remaining rules
still tried, and both rule loops always return.  At the four unguarded call
sites the exception is not caught and propagates out of `translate`: the
exact-stage call, the phonetic-stage call (reached when the phonetic form
differs), the fuzzy-stage call (a raising lookup of a reference phrase above
the threshold aborts the candidate scan), and the word-by-word call (a raising
per-token lookup aborts the token scan). -/
theorem c1_exception_propagation :
    (∀ (db : DB) (q : String),
      (∃ o, compoundWordSplit db q = Except.ok o) ∧
      (∃ o, patternMatch db q = Except.ok o)) ∧
    (∀ (db : DB) (q : String) (rule : CompoundRule) (rest : List CompoundRule)
        (parts : String × String),
      rule.matchFn q = some parts → compoundTry db parts = Except.error () →
      compoundLoop db q (rule :: rest) = compoundLoop db q rest) ∧
    (∀ (db : DB) (q : String) (rule : PatRule) (rest : List PatRule) (m : PatGroups),
      rule.matchFn q = some m → patternTry db rule m = Except.error () →
      patternLoop db q (rule :: rest) = patternLoop db q rest) ∧
    (∀ (c : Cache) (db : DB) (q d : String),
      pyStrip q ≠ "" →
      dictGet c (mkKey (pyStrip q) d) = none →
      db (normalizeSlang (pyStrip q)) d = Except.error () →
      translate c db q d = Except.error ()) ∧
    (∀ (c : Cache) (db : DB) (q d : String),
      pyStrip q ≠ "" →
      dictGet c (mkKey (pyStrip q) d) = none →
      db (normalizeSlang (pyStrip q)) d = Except.ok none →
      phoneticNormalize (normalizeSlang (pyStrip q)) ≠ normalizeSlang (pyStrip q) →
      db (phoneticNormalize (normalizeSlang (pyStrip q))) d = Except.error () →
      translate c db q d = Except.error ()) ∧
    (∀ (db : DB) (q : String) (θ : ℚ) (p : String) (rest : List String),
      θ ≤ simScore q p → db p "banglish_to_english" = Except.error () →
      fuzzyCollect db q θ (p :: rest) = Except.error ()) ∧
    (∀ (c : Cache) (db : DB) (q : String),
      pyStrip q ≠ "" →
      dictGet c (mkKey (pyStrip q) "banglish_to_english") = none →
      db (normalizeSlang (pyStrip q)) "banglish_to_english" = Except.ok none →
      (phoneticNormalize (normalizeSlang (pyStrip q)) = normalizeSlang (pyStrip q) ∨
        db (phoneticNormalize (normalizeSlang (pyStrip q))) "banglish_to_english" =
          Except.ok none) →
      fuzzyMatch db (normalizeSlang (pyStrip q)) (mkRat 4 5) = Except.error () →
      translate c db q "banglish_to_english" = Except.error ()) ∧
    (∀ (db : DB) (w : String) (ws : List String),
      db w "banglish_to_english" = Except.error () →
      weightedGo db (w :: ws) = Except.error ()) ∧
    (∀ (c : Cache) (db : DB) (q : String),
      pyStrip q ≠ "" →
      dictGet c (mkKey (pyStrip q) "banglish_to_english") = none →
      db (normalizeSlang (pyStrip q)) "banglish_to_english" = Except.ok none →
      (phoneticNormalize (normalizeSlang (pyStrip q)) = normalizeSlang (pyStrip q) ∨
        db (phoneticNormalize (normalizeSlang (pyStrip q))) "banglish_to_english" =
          Except.ok none) →
      fuzzyMatch db (normalizeSlang (pyStrip q)) (mkRat 4 5) = Except.ok none →
      compoundWordSplit db (normalizeSlang (pyStrip q)) = Except.ok none →
      patternMatch db (normalizeSlang (pyStrip q)) = Except.ok none →
      weightedWordByWord db (normalizeSlang (pyStrip q)) = Except.error () →
      translate c db q "banglish_to_english" = Except.error ()) := by
  refine ⟨?_, ?_, ?_, ?_, ?_, ?_, ?_, ?_, ?_⟩
  · exact fun db q =>
      ⟨compoundLoop_isOk db q compoundRules, patternLoop_isOk db q patternRules⟩
  · intro db q rule rest parts hm ht
    simp only [compoundLoop, hm, ht]
  · intro db q rule rest m hm ht
    simp only [patternLoop, hm, ht]
  · intro c db q d hq hcache hdb
    unfold translate translateS
    rw [if_neg (translate_guard_false hq)]
    simp only [hcache, translateStages, hdb]
  · intro c db q d hq hcache hex hne hph
    unfold translate translateS
    rw [if_neg (translate_guard_false hq)]
    have hscrut : (if phoneticNormalize (normalizeSlang (pyStrip q)) ≠ normalizeSlang (pyStrip q)
        then db (phoneticNormalize (normalizeSlang (pyStrip q))) d
        else Except.ok none) = Except.error () := by
      rw [if_pos hne]
      exact hph
    simp only [hcache, translateStages, hex, hscrut]
  · intro db q θ p rest hθ hdb
    simp [fuzzyCollect, hθ, hdb]
  · intro c db q hq hcache hex hph hfz
    unfold translate translateS
    rw [if_neg (translate_guard_false hq)]
    have hscrut : (if phoneticNormalize (normalizeSlang (pyStrip q)) ≠ normalizeSlang (pyStrip q)
        then db (phoneticNormalize (normalizeSlang (pyStrip q))) "banglish_to_english"
        else Except.ok none) = Except.ok none := by
      rcases hph with h | h
      · rw [if_neg (by simpa using h)]
      · by_cases hne : phoneticNormalize (normalizeSlang (pyStrip q)) ≠ normalizeSlang (pyStrip q)
        · rw [if_pos hne]
          exact h
        · rw [if_neg hne]
    simp only [hcache, translateStages, hex, hscrut]
    rw [if_neg (by simp : ¬("banglish_to_english" ≠ "banglish_to_english"))]
    simp only [hfz]
  · intro db w ws hdb
    simp [weightedGo, hdb]
  · intro c db q hq hcache hex hph hfz hcp hpm hwb
    unfold translate translateS
    rw [if_neg (translate_guard_false hq)]
    have hscrut : (if phoneticNormalize (normalizeSlang (pyStrip q)) ≠ normalizeSlang (pyStrip q)
        then db (phoneticNormalize (normalizeSlang (pyStrip q))) "banglish_to_english"
        else Except.ok none) = Except.ok none := by
      rcases hph with h | h
      · rw [if_neg (by simpa using h)]
      · by_cases hne : phoneticNormalize (normalizeSlang (pyStrip q)) ≠ normalizeSlang (pyStrip q)
        · rw [if_pos hne]
          exact h
        · rw [if_neg hne]
    simp only [hcache, translateStages, hex, hscrut]
    rw [if_neg (by simp : ¬("banglish_to_english" ≠ "banglish_to_english"))]
    simp only [hfz, hcp, hpm]
    exact hwb

theorem c1_exception_propagation_witness :
    compoundLoop throwingDB "lalbari"
        ({ matchFn := compoundMatch1, description := "house/building compounds" } :: []) =
      compoundLoop throwingDB "lalbari" [] ∧
    patternLoop throwingDB "tumi ki"
        ({ name := "question_ki", matchFn := questionMatch "ki".toList "k".toList,
           transform := fun _ base => "what " ++ base ++ "?",
           confidence := mkRat 85 100 } :: []) =
      patternLoop throwingDB "tumi ki" [] ∧
    translate [] throwingDB "salam" "banglish_to_english" = Except.error () ∧
    translate [] (fun s _ => if s = "ckh" then Except.ok none else Except.error ())
      "ckh" "banglish_to_english" = Except.error () ∧
    fuzzyCollect throwingDB "kemon acho" (mkRat 4 5) ["kemon acho"] = Except.error () ∧
    translate [] (fun s _ => if s = "ki kor" then Except.ok none else Except.error ())
      "ki kor" "banglish_to_english" = Except.error () ∧
    weightedGo throwingDB ["bari"] = Except.error () ∧
    translate [] (fun s _ => if s = "zzz yyy" then Except.ok none else Except.error ())
      "zzz yyy" "banglish_to_english" = Except.error () :=
  ⟨c1_exception_propagation.2.1 throwingDB "lalbari"
     { matchFn := compoundMatch1, description := "house/building compounds" } []
     ("lal", "bari") (by decide) (by decide),
   c1_exception_propagation.2.2.1 throwingDB "tumi ki"
     { name := "question_ki", matchFn := questionMatch "ki".toList "k".toList,
       transform := fun _ base => "what " ++ base ++ "?",
       confidence := mkRat 85 100 } []
     { g1 := "tumi" } (by decide) (by decide),
   c1_exception_propagation.2.2.2.1 [] throwingDB "salam" "banglish_to_english"
     (by decide) (by decide) (by decide),
   c1_exception_propagation.2.2.2.2.1 []
     (fun s _ => if s = "ckh" then Except.ok none else Except.error ())
     "ckh" "banglish_to_english"
     (by decide) (by decide) (by decide) (by decide) (by decide),
   c1_exception_propagation.2.2.2.2.2.1 throwingDB "kemon acho" (mkRat 4 5)
     "kemon acho" [] (by decide) (by decide),
   c1_exception_propagation.2.2.2.2.2.2.1 []
     (fun s _ => if s = "ki kor" then Except.ok none else Except.error ())
     "ki kor" (by decide) (by decide) (by decide) (Or.inl (by decide)) (by decide),
   c1_exception_propagation.2.2.2.2.2.2.2.1 throwingDB "bari" [] (by decide),
   c1_exception_propagation.2.2.2.2.2.2.2.2 []
     (fun s _ => if s = "zzz yyy" then Except.ok none else Except.error ())
     "zzz yyy" (by decide) (by decide) (by decide) (Or.inl (by decide)) (by decide)
     (by decide) (by decide) (by decide)⟩

/-- C3 (counterexample): after `add_feedback(" hi", forward, "hello", true)`
the entry is recorded under the verbatim key `" hi:banglish_to_english"`, but
`translate(" hi", forward)` strips the query before building its cache key and
misses it, returning `none` instead of the claimed
`{translation = "hello", confidence = 0.9, method = adaptive_cache}`. -/
theorem c3_counterexample :
    dictGet (addFeedback [] " hi" "banglish_to_english" "hello" true)
        (mkKey " hi" "banglish_to_english") =
      some { translation := "hello", confidence := mkRat 9 10,
             method := "user_feedback", feedback_count := 1 } ∧
    translate (addFeedback [] " hi" "banglish_to_english" "hello" true)
        (pureDB dummyLookup) " hi" "banglish_to_english" = Except.ok none ∧
    (Except.ok (none : Option TResult) : Except Unit (Option TResult)) ≠
      Except.ok (some { translation := "hello", confidence := mkRat 9 10,
                        method := "adaptive_cache", feedback_count := some 1 }) := by
  refine ⟨by decide, by decide, by decide⟩

/-- C3 (amended): for every query `q` that equals its trimmed form and is
non-empty, immediately after `add_feedback(q, d, t, true)` the call
`translate(q, d)` returns `t` with confidence `0.9` and method
`adaptive_cache`, for an arbitrary collaborator `db` (which is never invoked:
the cache hit returns before the dictionary, fuzzy, compound, pattern or
word-by-word stages), even if the dictionary would resolve `q` differently. -/
theorem c3_feedback_roundtrip_trimmed (c : Cache) (db : DB) (q d t : String)
    (htrim : pyStrip q = q) (hne : q ≠ "") :
    ∃ r, translate (addFeedback c q d t true) db q d = Except.ok (some r) ∧
      r.translation = t ∧ r.confidence = 9 / 10 ∧ r.method = "adaptive_cache" := by
  have hq : pyStrip q ≠ "" := by rw [htrim]; exact hne
  unfold translate translateS
  rw [if_neg (translate_guard_false hq)]
  unfold addFeedback
  rw [if_pos rfl, htrim]
  simp only [dictGet_dictSet_self]
  refine ⟨_, rfl, rfl, ?_, rfl⟩
  show mkRat 9 10 = 9 / 10
  rw [Rat.mkRat_eq_div]
  norm_num

theorem c3_feedback_roundtrip_trimmed_witness :
    ∃ r, translate (addFeedback [] "hi" "banglish_to_english" "hola" true)
          (pureDB (fun _ _ => some { english := "DIFFERENT" }))
          "hi" "banglish_to_english" = Except.ok (some r) ∧
      r.translation = "hola" ∧ r.confidence = 9 / 10 ∧ r.method = "adaptive_cache" :=
  c3_feedback_roundtrip_trimmed [] (pureDB (fun _ _ => some { english := "DIFFERENT" }))
    "hi" "banglish_to_english" "hola" (by decide) (by decide)

/-- C9: `translate` never mutates the adaptive cache: the cache after any call
is the cache before it, and a cache hit returns `.copy()` of the stored entry
with only the returned copy's `method` field set to `adaptive_cache`, the
stored entry (translation, confidence, stored method, feedback count) being
still found unchanged in the cache afterwards. -/
theorem c9_translate_cache_frame (c : Cache) (db : DB) (q d : String) :
    (translateS c db q d).2 = c ∧
    (∀ e, dictGet c (mkKey (pyStrip q) d) = some e → pyStrip q ≠ "" →
      (translateS c db q d).1 = Except.ok (some (cacheHitResult e)) ∧
      cacheHitResult e = { translation := e.translation, confidence := e.confidence,
                           method := "adaptive_cache",
                           feedback_count := some e.feedback_count } ∧
      dictGet (translateS c db q d).2 (mkKey (pyStrip q) d) = some e) := by
  constructor
  · unfold translateS
    by_cases hg : q = "" ∨ pyStrip q = ""
    · rw [if_pos hg]
    · rw [if_neg hg]
      cases h : dictGet c (mkKey (pyStrip q) d) <;> simp [h]
  · intro e he hq
    unfold translateS
    rw [if_neg (translate_guard_false hq)]
    simp [he, cacheHitResult]

theorem c9_translate_cache_frame_witness :
    (translateS [("hi:banglish_to_english",
        { translation := "hello", confidence := mkRat 9 10,
          method := "user_feedback", feedback_count := 2 })]
      (pureDB dummyLookup) "hi" "banglish_to_english").2 =
      [("hi:banglish_to_english",
        { translation := "hello", confidence := mkRat 9 10,
          method := "user_feedback", feedback_count := 2 })] ∧
    (translateS [("hi:banglish_to_english",
        { translation := "hello", confidence := mkRat 9 10,
          method := "user_feedback", feedback_count := 2 })]
      (pureDB dummyLookup) "hi" "banglish_to_english").1 =
      Except.ok (some (cacheHitResult
        { translation := "hello", confidence := mkRat 9 10,
          method := "user_feedback", feedback_count := 2 })) := by
  have h := c9_translate_cache_frame
    [("hi:banglish_to_english",
      { translation := "hello", confidence := mkRat 9 10,
        method := "user_feedback", feedback_count := 2 })]
    (pureDB dummyLookup) "hi" "banglish_to_english"
  exact ⟨h.1, (h.2 _ (by decide) (by decide)).1⟩

/-- C10 (counterexample): the claim that a feedback entry recorded under an
untrimmed query is never returned by any translate call fails when keys can
collide through colons: `add_feedback("a ", "y:z", "hello", true)` stores the
key `"a :y:z"`, and `translate("a :y", "z")` builds that same key from its
stripped query and returns the entry. -/
theorem c10_counterexample :
    pyStrip "a " ≠ "a " ∧
    translate (addFeedback [] "a " "y:z" "hello" true) (pureDB dummyLookup) "a :y" "z" =
      Except.ok (some { translation := "hello", confidence := mkRat 9 10,
                        method := "adaptive_cache", feedback_count := some 1 }) :=
  ⟨by decide, by decide⟩

/-- C10 (amended): `translate` keys the adaptive cache on the trimmed query
while `add_feedback` keys on the verbatim query.  Hence (i) for every query
whose trimmed form differs from it, provided the query and the feedback
direction contain no colon, an entry recorded by `add_feedback(q, d, t, true)`
is invisible to every `translate` call — the call behaves exactly as with the
entry absent; and (ii) `translate(q, d)` always behaves identically to
`translate(trim(q), d)`. -/
theorem c10_cache_key_trim :
    (∀ (c : Cache) (db : DB) (q d t q2 d2 : String),
      ':' ∉ q.toList → ':' ∉ d.toList → pyStrip q ≠ q →
      translate (addFeedback c q d t true) db q2 d2 = translate c db q2 d2) ∧
    (∀ (c : Cache) (db : DB) (q d : String),
      translate c db q d = translate c db (pyStrip q) d) := by
  constructor
  · intro c db q d t q2 d2 hq hd hstrip
    unfold translate translateS
    by_cases hg : q2 = "" ∨ pyStrip q2 = ""
    · rw [if_pos hg, if_pos hg]
    · rw [if_neg hg, if_neg hg]
      have hkey := mkKey_strip_ne q d q2 d2 hq hd hstrip
      unfold addFeedback
      rw [if_pos rfl]
      simp only [dictGet_dictSet_ne _ _ _ hkey]
      cases hres : dictGet c (mkKey (pyStrip q2) d2) <;> simp [hres]
  · intro c db q d
    unfold translate translateS
    by_cases hs : pyStrip q = ""
    · rw [if_pos (Or.inr hs), if_pos (Or.inl hs)]
    · have h1 : ¬(q = "" ∨ pyStrip q = "") := translate_guard_false hs
      have h2 : ¬(pyStrip q = "" ∨ pyStrip (pyStrip q) = "") :=
        translate_guard_false (by rw [pyStrip_idem]; exact hs)
      rw [if_neg h1, if_neg h2, pyStrip_idem]

theorem c10_cache_key_trim_witness :
    translate (addFeedback [] "hi " "banglish_to_english" "hola" true)
        (pureDB dummyLookup) "kemon acho" "banglish_to_english" =
      translate [] (pureDB dummyLookup) "kemon acho" "banglish_to_english" ∧
    translate [] (pureDB dummyLookup) " kemon acho " "banglish_to_english" =
      translate [] (pureDB dummyLookup) (pyStrip " kemon acho ") "banglish_to_english" :=
  ⟨c10_cache_key_trim.1 [] (pureDB dummyLookup) "hi " "banglish_to_english" "hola"
      "kemon acho" "banglish_to_english" (by decide) (by decide) (by decide),
   c10_cache_key_trim.2 [] (pureDB dummyLookup) " kemon acho " "banglish_to_english"⟩

theorem fuzzyMatch_method (db : DB) (q : String) (θ : ℚ) (r : TResult)
    (h : fuzzyMatch db q θ = Except.ok (some r)) : r.method = "fuzzy" := by
  unfold fuzzyMatch at h
  cases hc : fuzzyCollect db q θ demoPhrases with
  | error e => simp [hc] at h
  | ok cs =>
    cases cs with
    | nil => simp [hc] at h
    | cons a l =>
      simp only [hc, Except.ok.injEq, Option.some.injEq] at h
      subst h
      rfl

theorem compoundTry_method (db : DB) (parts : String × String) (r : TResult)
    (h : compoundTry db parts = Except.ok (some r)) : r.method = "compound" := by
  unfold compoundTry at h
  cases hp : compoundParts db [parts.1, parts.2] with
  | error e => simp [hp] at h
  | ok pr =>
    obtain ⟨ts, cs⟩ := pr
    simp only [hp] at h
    by_cases he : ts.isEmpty
    · rw [if_pos he] at h
      simp at h
    · rw [if_neg he] at h
      simp only [Except.ok.injEq, Option.some.injEq] at h
      subst h
      rfl

theorem compoundLoop_method (db : DB) (q : String) (r : TResult) :
    ∀ rules : List CompoundRule,
      compoundLoop db q rules = Except.ok (some r) → r.method = "compound" := by
  intro rules
  induction rules with
  | nil => intro h; simp [compoundLoop] at h
  | cons rule rest ih =>
    intro h
    simp only [compoundLoop] at h
    cases hm : rule.matchFn q with
    | none =>
      simp only [hm] at h
      exact ih h
    | some parts =>
      simp only [hm] at h
      cases ht : compoundTry db parts with
      | error e =>
        simp only [ht] at h
        exact ih h
      | ok o =>
        simp only [ht] at h
        cases o with
        | none => exact ih h
        | some r2 =>
          simp only [Except.ok.injEq, Option.some.injEq] at h
          subst h
          exact compoundTry_method db parts r2 ht

theorem patternTry_spec (db : DB) (rule : PatRule) (m : PatGroups) (r : TResult)
    (h : patternTry db rule m = Except.ok r) :
    r.method = "pattern" ∧ r.confidence = rule.confidence ∧ r.pattern = some rule.name := by
  unfold patternTry at h
  cases hd : db m.g1 "banglish_to_english" with
  | error e => simp [hd] at h
  | ok o =>
    cases o with
    | some res =>
      simp only [hd, Except.ok.injEq] at h
      subst h
      exact ⟨rfl, rfl, rfl⟩
    | none =>
      simp only [hd] at h
      cases hw : wordByWordTranslate db m.g1 with
      | error e => simp [hw] at h
      | ok base =>
        simp only [hw, Except.ok.injEq] at h
        subst h
        exact ⟨rfl, rfl, rfl⟩

theorem patternLoop_spec (db : DB) (q : String) (r : TResult) :
    ∀ rules : List PatRule,
      patternLoop db q rules = Except.ok (some r) →
      ∃ rule ∈ rules, r.method = "pattern" ∧ r.confidence = rule.confidence ∧
        r.pattern = some rule.name := by
  intro rules
  induction rules with
  | nil => intro h; simp [patternLoop] at h
  | cons rule rest ih =>
    intro h
    simp only [patternLoop] at h
    cases hm : rule.matchFn q with
    | none =>
      simp only [hm] at h
      obtain ⟨rule2, hmem, hp⟩ := ih h
      exact ⟨rule2, List.mem_cons_of_mem rule hmem, hp⟩
    | some m =>
      simp only [hm] at h
      cases ht : patternTry db rule m with
      | error e =>
        simp only [ht] at h
        obtain ⟨rule2, hmem, hp⟩ := ih h
        exact ⟨rule2, List.mem_cons_of_mem rule hmem, hp⟩
      | ok r2 =>
        simp only [ht, Except.ok.injEq, Option.some.injEq] at h
        subst h
        exact ⟨rule, List.mem_cons_self rule rest, patternTry_spec db rule m r2 ht⟩

theorem weightedWordByWord_method (db : DB) (q : String) (r : TResult)
    (h : weightedWordByWord db q = Except.ok (some r)) : r.method = "word_by_word" := by
  simp only [weightedWordByWord] at h
  by_cases hw : (pySplit q).isEmpty
  · rw [if_pos hw] at h
    simp at h
  · rw [if_neg hw] at h
    cases hg : weightedGo db (pySplit q) with
    | error e => simp [hg] at h
    | ok pr =>
      obtain ⟨ts, n⟩ := pr
      simp only [hg] at h
      by_cases hc : 0 < n
      · rw [if_pos hc] at h
        simp only [Except.ok.injEq, Option.some.injEq] at h
        subst h
        rfl
      · rw [if_neg hc] at h
        simp at h

theorem translateStages_cases (db : DB) (query d : String) (r : TResult)
    (h : translateStages db query d = Except.ok (some r)) :
    r.method = "exact" ∨
    (r.method = "phonetic" ∧
      phoneticNormalize (normalizeSlang query) ≠ normalizeSlang query) ∨
    (d = "banglish_to_english" ∧
      (r.method = "fuzzy" ∨ r.method = "compound" ∨ r.method = "pattern" ∨
       r.method = "word_by_word")) := by
  simp only [translateStages] at h
  cases hex : db (normalizeSlang query) d with
  | error e => simp [hex] at h
  | ok oex =>
    cases oex with
    | some res =>
      simp only [hex] at h
      by_cases hdir : d = "banglish_to_english"
      · rw [if_pos hdir] at h
        simp only [Except.ok.injEq, Option.some.injEq] at h
        subst h
        exact Or.inl rfl
      · rw [if_neg hdir] at h
        simp only [Except.ok.injEq, Option.some.injEq] at h
        subst h
        exact Or.inl rfl
    | none =>
      simp only [hex] at h
      cases hscrut : (if phoneticNormalize (normalizeSlang query) ≠ normalizeSlang query
          then db (phoneticNormalize (normalizeSlang query)) d else Except.ok none) with
      | error e => simp [hscrut] at h
      | ok oph =>
        cases oph with
        | some res =>
          simp only [hscrut] at h
          have hpq : phoneticNormalize (normalizeSlang query) ≠ normalizeSlang query := by
            by_cases hp : phoneticNormalize (normalizeSlang query) = normalizeSlang query
            · rw [if_neg (by simpa using hp)] at hscrut
              exact absurd hscrut (by simp)
            · exact hp
          simp only [Except.ok.injEq, Option.some.injEq] at h
          subst h
          exact Or.inr (Or.inl ⟨rfl, hpq⟩)
        | none =>
          simp only [hscrut] at h
          by_cases hdir : d ≠ "banglish_to_english"
          · rw [if_pos hdir] at h
            simp at h
          · rw [if_neg hdir] at h
            push_neg at hdir
            cases hfz : fuzzyMatch db (normalizeSlang query) (mkRat 4 5) with
            | error e => simp [hfz] at h
            | ok ofz =>
              cases ofz with
              | some rf =>
                simp only [hfz, Except.ok.injEq, Option.some.injEq] at h
                subst h
                exact Or.inr (Or.inr ⟨hdir, Or.inl (fuzzyMatch_method _ _ _ _ hfz)⟩)
              | none =>
                simp only [hfz] at h
                cases hcp : compoundWordSplit db (normalizeSlang query) with
                | error e => simp [hcp] at h
                | ok ocp =>
                  cases ocp with
                  | some rc =>
                    simp only [hcp, Except.ok.injEq, Option.some.injEq] at h
                    subst h
                    exact Or.inr (Or.inr ⟨hdir,
                      Or.inr (Or.inl (compoundLoop_method _ _ _ compoundRules hcp))⟩)
                  | none =>
                    simp only [hcp] at h
                    cases hpm : patternMatch db (normalizeSlang query) with
                    | error e => simp [hpm] at h
                    | ok opm =>
                      cases opm with
                      | some rp =>
                        simp only [hpm, Except.ok.injEq, Option.some.injEq] at h
                        subst h
                        obtain ⟨rule, _, hmeth, _⟩ := patternLoop_spec _ _ _ patternRules hpm
                        exact Or.inr (Or.inr ⟨hdir, Or.inr (Or.inr (Or.inl hmeth))⟩)
                      | none =>
                        simp only [hpm] at h
                        exact Or.inr (Or.inr ⟨hdir,
                          Or.inr (Or.inr (Or.inr (weightedWordByWord_method _ _ _ h)))⟩)

theorem replaceAllF_not_contains (pat repl : List Char) :
    ∀ (fuel : Nat) (s : List Char), containsSub pat s = false →
      replaceAllF fuel pat repl s = s := by
  intro fuel
  induction fuel with
  | zero => intro s h; rfl
  | succ fuel ih =>
    intro s h
    cases s with
    | nil =>
      have hpre : pat.isPrefixOf ([] : List Char) = false := by
        simpa [containsSub] using h
      simp [replaceAllF, hpre]
    | cons c rest =>
      have h2 : pat.isPrefixOf (c :: rest) = false ∧ containsSub pat rest = false := by
        simpa [containsSub, Bool.or_eq_false_iff] using h
      simp only [replaceAllF, h2.1, Bool.and_false, Bool.false_eq_true, if_false]
      rw [ih rest h2.2]

theorem replaceAll_not_contains (pat repl s : List Char)
    (h : containsSub pat s = false) : replaceAll pat repl s = s :=
  replaceAllF_not_contains pat repl s.length s h

theorem translate_no_phonetic_when_equal (c : Cache) (db : DB) (q d : String) (r : TResult)
    (hpq : phoneticNormalize (normalizeSlang (pyStrip q)) = normalizeSlang (pyStrip q))
    (h : translate c db q d = Except.ok (some r)) : r.method ≠ "phonetic" := by
  unfold translate translateS at h
  by_cases hg : q = "" ∨ pyStrip q = ""
  · rw [if_pos hg] at h
    simp at h
  · rw [if_neg hg] at h
    cases hcache : dictGet c (mkKey (pyStrip q) d) with
    | some e =>
      simp only [hcache, Except.ok.injEq, Option.some.injEq] at h
      subst h
      simp [cacheHitResult]
    | none =>
      simp only [hcache] at h
      rcases translateStages_cases db (pyStrip q) d r h with hm | ⟨hm, hne⟩ | ⟨_, hm⟩
      · rw [hm]; decide
      · exact absurd hpq hne
      · rcases hm with hm | hm | hm | hm <;> rw [hm] <;> decide

/-- C7: phonetic normalization lower-cases the whole string and then applies
the rule table as a left-to-right sequential fold, each step replacing all
occurrences present in the evolving string (so a later rule can consume text
produced by an earlier one — e.g. `"ckh"` goes `ck→k` then `kh→k`, yielding
`"k"`); and the orchestrator attempts the phonetic-lookup stage only when the
phonetic form differs from the slang-normalized form: when they coincide, no
`translate` result ever carries method `phonetic`. -/
theorem c7_phonetic_sequential :
    (∀ text : String, phoneticNormalize text = phoneticFoldSpec text) ∧
    phoneticNormalize "ckh" = "k" ∧
    (∀ (c : Cache) (db : DB) (q d : String) (r : TResult),
      phoneticNormalize (normalizeSlang (pyStrip q)) = normalizeSlang (pyStrip q) →
      translate c db q d = Except.ok (some r) → r.method ≠ "phonetic") := by
  refine ⟨?_, by decide, translate_no_phonetic_when_equal⟩
  intro text
  unfold phoneticNormalize phoneticFoldSpec phoneticNormalizeL
  apply congrArg List.asString
  apply List.foldl_ext
  intro acc p _
  by_cases hc : containsSub p.1 acc
  · rw [if_pos hc]
  · rw [if_neg hc, replaceAll_not_contains p.1 p.2 acc (by simpa using hc)]

theorem c7_phonetic_sequential_witness :
    phoneticNormalize "dhonnobad" = phoneticFoldSpec "dhonnobad" ∧
    ({ translation := "home", confidence := 1, method := "exact" } : TResult).method ≠
      "phonetic" :=
  ⟨c7_phonetic_sequential.1 "dhonnobad",
   c7_phonetic_sequential.2.2 [] (pureDB dummyLookup) "bari" "banglish_to_english"
     { translation := "home", confidence := 1, method := "exact" }
     (by decide) (by decide)⟩

/-- C8: for every request whose direction is not `banglish_to_english`
(including any unrecognized direction), `translate` only ever produces results
from the adaptive-cache, exact, or phonetic stages — never fuzzy, compound,
pattern or word-by-word; and when additionally the cache has no entry for the
request and the collaborator does not answer that direction, the request
yields a miss (`none`). -/
theorem c8_reverse_direction_stages :
    (∀ (c : Cache) (db : DB) (q d : String) (r : TResult),
      d ≠ "banglish_to_english" →
      translate c db q d = Except.ok (some r) →
      r.method = "adaptive_cache" ∨ r.method = "exact" ∨ r.method = "phonetic") ∧
    (∀ (c : Cache) (db : DB) (q d : String),
      d ≠ "banglish_to_english" →
      dictGet c (mkKey (pyStrip q) d) = none →
      (∀ s, db s d = Except.ok none) →
      translate c db q d = Except.ok none) := by
  constructor
  · intro c db q d r hd h
    unfold translate translateS at h
    by_cases hg : q = "" ∨ pyStrip q = ""
    · rw [if_pos hg] at h
      simp at h
    · rw [if_neg hg] at h
      cases hcache : dictGet c (mkKey (pyStrip q) d) with
      | some e =>
        simp only [hcache, Except.ok.injEq, Option.some.injEq] at h
        subst h
        exact Or.inl rfl
      | none =>
        simp only [hcache] at h
        rcases translateStages_cases db (pyStrip q) d r h with hm | ⟨hm, _⟩ | ⟨hfwd, _⟩
        · exact Or.inr (Or.inl hm)
        · exact Or.inr (Or.inr hm)
        · exact absurd hfwd hd
  · intro c db q d hd hcache hdb
    unfold translate translateS
    by_cases hg : q = "" ∨ pyStrip q = ""
    · rw [if_pos hg]
    · rw [if_neg hg]
      simp only [hcache]
      simp only [translateStages, hdb, ite_self]
      rw [if_pos hd]

theorem c8_reverse_direction_stages_witness :
    (({ translation := "hola", confidence := 1, method := "exact" } : TResult).method =
        "adaptive_cache" ∨
      ({ translation := "hola", confidence := 1, method := "exact" } : TResult).method =
        "exact" ∨
      ({ translation := "hola", confidence := 1, method := "exact" } : TResult).method =
        "phonetic") ∧
    translate [] (pureDB (fun _ _ => none)) "kemon acho" "english_to_banglish" =
      Except.ok none :=
  ⟨c8_reverse_direction_stages.1 []
      (pureDB (fun s _ => if s = "hello" then
        some { english := "x", banglish := some "hola" } else none))
      "hello" "english_to_banglish"
      { translation := "hola", confidence := 1, method := "exact" }
      (by decide) (by decide),
   c8_reverse_direction_stages.2 [] (pureDB (fun _ _ => none))
      "kemon acho" "english_to_banglish" (by decide) (by decide) (fun s => rfl)⟩

/-! ## Stage refinement and well-formedness lemmas -/

theorem wordByWordGo_pure (f : String → String → Option LookupRes) :
    ∀ ws : List String,
      wordByWordGo (pureDB f) ws = Except.ok (ws.map (fun w =>
        match f w "banglish_to_english" with
        | some r => r.english
        | none => w)) := by
  intro ws
  induction ws with
  | nil => rfl
  | cons w rest ih =>
    cases hf : f w "banglish_to_english" with
    | none => simp [wordByWordGo, pureDB, hf, ih]
    | some r => simp [wordByWordGo, pureDB, hf, ih]

theorem wordByWordTranslate_pure (f : String → String → Option LookupRes) (q : String) :
    wordByWordTranslate (pureDB f) q = Except.ok (wordByWordFn f q) := by
  simp [wordByWordTranslate, wordByWordGo_pure, wordByWordFn]

theorem compoundTry_pure (f : String → String → Option LookupRes)
    (parts : String × String) :
    compoundTry (pureDB f) parts = Except.ok (some (compoundSpecApply f parts)) := by
  cases h1 : f parts.1 "banglish_to_english" with
  | none =>
    cases h2 : f parts.2 "banglish_to_english" with
    | none =>
      simp [compoundTry, compoundParts, pureDB, h1, h2, compoundSpecApply, joinSpace,
        TResult.mk.injEq]
      all_goals decide
    | some r2 =>
      simp [compoundTry, compoundParts, pureDB, h1, h2, compoundSpecApply, joinSpace,
        TResult.mk.injEq]
      all_goals decide
  | some r1 =>
    cases h2 : f parts.2 "banglish_to_english" with
    | none =>
      simp [compoundTry, compoundParts, pureDB, h1, h2, compoundSpecApply, joinSpace,
        TResult.mk.injEq]
      all_goals decide
    | some r2 =>
      simp [compoundTry, compoundParts, pureDB, h1, h2, compoundSpecApply, joinSpace,
        TResult.mk.injEq]
      all_goals decide

theorem compoundLoop_pure (f : String → String → Option LookupRes) (q : String) :
    ∀ rules : List CompoundRule,
      compoundLoop (pureDB f) q rules =
        Except.ok ((rules.findSome? (fun rule => rule.matchFn q)).map
          (compoundSpecApply f)) := by
  intro rules
  induction rules with
  | nil => rfl
  | cons rule rest ih =>
    cases hm : rule.matchFn q with
    | none => simp [compoundLoop, List.findSome?, hm, ih]
    | some parts => simp [compoundLoop, List.findSome?, hm, compoundTry_pure]

theorem compoundLoop_none (db : DB) (q : String) :
    ∀ rules : List CompoundRule, (∀ rule ∈ rules, rule.matchFn q = none) →
      compoundLoop db q rules = Except.ok none := by
  intro rules
  induction rules with
  | nil => intro _; rfl
  | cons rule rest ih =>
    intro h
    have h1 := h rule (List.mem_cons_self rule rest)
    simp only [compoundLoop, h1]
    exact ih (fun r hr => h r (List.mem_cons_of_mem rule hr))

theorem patternTry_pure (f : String → String → Option LookupRes) (rule : PatRule)
    (m : PatGroups) :
    patternTry (pureDB f) rule m = Except.ok (patternG1Apply f rule m) := by
  cases hf : f m.g1 "banglish_to_english" with
  | some r => simp [patternTry, pureDB, hf, patternG1Apply]
  | none => simp [patternTry, pureDB, hf, patternG1Apply, wordByWordTranslate_pure,
      wordByWordFn]

theorem patternLoop_pure (f : String → String → Option LookupRes) (q : String) :
    ∀ rules : List PatRule,
      patternLoop (pureDB f) q rules =
        Except.ok ((rules.findSome? (fun rule =>
          (rule.matchFn q).map (fun m => (rule, m)))).map
          (fun p => patternG1Apply f p.1 p.2)) := by
  intro rules
  induction rules with
  | nil => rfl
  | cons rule rest ih =>
    cases hm : rule.matchFn q with
    | none => simp [patternLoop, List.findSome?, hm, ih]
    | some m => simp [patternLoop, List.findSome?, hm, patternTry_pure]

theorem fuzzyCollect_pure (f : String → String → Option LookupRes) (q : String)
    (θ : ℚ) :
    ∀ l : List String,
      fuzzyCollect (pureDB f) q θ l = Except.ok (l.filterMap (fun p =>
        if θ ≤ simScore q p then
          match f p "banglish_to_english" with
          | some r => some { phrase := p, translation := r.english,
                             similarity := simScore q p }
          | none => none
        else none)) := by
  intro l
  induction l with
  | nil => rfl
  | cons p rest ih =>
    by_cases hθ : θ ≤ simScore q p
    · cases hf : f p "banglish_to_english" with
      | none => simp [fuzzyCollect, pureDB, hθ, hf, ih, List.filterMap_cons]
      | some r => simp [fuzzyCollect, pureDB, hθ, hf, ih, List.filterMap_cons]
    · simp [fuzzyCollect, hθ, ih, List.filterMap_cons]

theorem fuzzyMatch_pure (f : String → String → Option LookupRes) (q : String)
    (θ : ℚ) :
    fuzzyMatch (pureDB f) q θ = Except.ok (fuzzySpecFn f q θ) := by
  have hc : fuzzyCollect (pureDB f) q θ demoPhrases = Except.ok (fuzzySpecCands f q θ) :=
    fuzzyCollect_pure f q θ demoPhrases
  unfold fuzzyMatch fuzzySpecFn
  rw [hc]
  cases h : fuzzySpecCands f q θ with
  | nil => rfl
  | cons c cs => rfl

theorem pickBest_split :
    ∀ (l : List FuzzyCand) (c : FuzzyCand),
      ∃ l1 l2, c :: l = l1 ++ pickBest c l :: l2 ∧
        (∀ x ∈ l1, x.similarity < (pickBest c l).similarity) ∧
        (∀ x ∈ l2, x.similarity ≤ (pickBest c l).similarity) := by
  intro l
  induction l with
  | nil =>
    intro c
    exact ⟨[], [], rfl, by simp, by simp⟩
  | cons x rest ih =>
    intro c
    by_cases hlt : c.similarity < x.similarity
    · have hpb : pickBest c (x :: rest) = pickBest x rest := by
        simp [pickBest, hlt]
      rw [hpb]
      obtain ⟨l1, l2, heq, hbefore, hafter⟩ := ih x
      have hxle : x.similarity ≤ (pickBest x rest).similarity := by
        cases l1 with
        | nil =>
          simp only [List.nil_append] at heq
          injection heq with h1 h2
          rw [← h1]
        | cons y l1' =>
          simp only [List.cons_append] at heq
          injection heq with h1 h2
          have hb := hbefore y (List.mem_cons_self y l1')
          rw [← h1] at hb
          exact le_of_lt hb
      refine ⟨c :: l1, l2, ?_, ?_, hafter⟩
      · rw [List.cons_append, ← heq]
      · intro y hy
        rcases List.mem_cons.mp hy with hy1 | hy2
        · rw [hy1]
          exact lt_of_lt_of_le hlt hxle
        · exact hbefore y hy2
    · have hpb : pickBest c (x :: rest) = pickBest c rest := by
        simp [pickBest, hlt]
      rw [hpb]
      have hxc : x.similarity ≤ c.similarity := not_lt.mp hlt
      obtain ⟨l1, l2, heq, hbefore, hafter⟩ := ih c
      cases l1 with
      | nil =>
        simp only [List.nil_append] at heq
        injection heq with h1 h2
        refine ⟨[], x :: l2, ?_, by simp, ?_⟩
        · simp only [List.nil_append]
          rw [← h1, ← h2]
        · intro y hy
          rcases List.mem_cons.mp hy with hy1 | hy2
          · rw [hy1, ← h1]
            exact hxc
          · exact hafter y hy2
      | cons z l1' =>
        simp only [List.cons_append] at heq
        injection heq with h1 h2
        have hcbest : c.similarity < (pickBest c rest).similarity := by
          have hb := hbefore z (List.mem_cons_self z l1')
          rw [← h1] at hb
          exact hb
        refine ⟨c :: x :: l1', l2, ?_, ?_, hafter⟩
        · simp only [List.cons_append]
          rw [← h2]
        · intro y hy
          rcases List.mem_cons.mp hy with hy1 | hy2
          · rw [hy1]; exact hcbest
          · rcases List.mem_cons.mp hy2 with hy3 | hy4
            · rw [hy3]; exact lt_of_le_of_lt hxc hcbest
            · exact hbefore y (List.mem_cons_of_mem z hy4)

theorem pyLower_length (s : String) : (pyLower s).length = s.length := by
  show (s.data.map Char.toLower).length = s.data.length
  exact List.length_map _ _

theorem simScore_mem_unit (q p : String) : 0 ≤ simScore q p ∧ simScore q p ≤ 1 := by
  unfold simScore
  by_cases h : 0 < max q.length p.length
  · rw [if_pos h, qsub_eq, qdiv_eq]
    have h1 : levenshteinS (pyLower q) (pyLower p) ≤ max (pyLower q).length (pyLower p).length :=
      levenshteinS_le_max _ _
    rw [pyLower_length, pyLower_length] at h1
    have hd : (levenshteinS (pyLower q) (pyLower p) : ℚ) ≤ ((max q.length p.length : Nat) : ℚ) := by
      exact_mod_cast h1
    have hm : (0 : ℚ) < ((max q.length p.length : Nat) : ℚ) := by exact_mod_cast h
    constructor
    · have hdo : (levenshteinS (pyLower q) (pyLower p) : ℚ) / ((max q.length p.length : Nat) : ℚ) ≤ 1 :=
        (div_le_one hm).mpr hd
      linarith
    · have hdn : 0 ≤ (levenshteinS (pyLower q) (pyLower p) : ℚ) / ((max q.length p.length : Nat) : ℚ) :=
        div_nonneg (by positivity) (le_of_lt hm)
      linarith
  · rw [if_neg h]
    constructor <;> norm_num

theorem fuzzyCollect_sims (db : DB) (q : String) (θ : ℚ) :
    ∀ (l : List String) (cs : List FuzzyCand),
      fuzzyCollect db q θ l = Except.ok cs →
      ∀ x ∈ cs, ∃ p, x.similarity = simScore q p := by
  intro l
  induction l with
  | nil =>
    intro cs h x hx
    simp only [fuzzyCollect, Except.ok.injEq] at h
    subst h
    simp at hx
  | cons p rest ih =>
    intro cs h x hx
    simp only [fuzzyCollect] at h
    by_cases hθ : θ ≤ simScore q p
    · rw [if_pos hθ] at h
      cases hd : db p "banglish_to_english" with
      | error e => simp [hd] at h
      | ok o =>
        simp only [hd] at h
        cases o with
        | none => exact ih cs h x hx
        | some r =>
          cases hrec : fuzzyCollect db q θ rest with
          | error e => simp [hrec] at h
          | ok cs2 =>
            simp only [hrec, Except.ok.injEq] at h
            subst h
            rcases List.mem_cons.mp hx with hx1 | hx2
            · subst hx1
              exact ⟨p, rfl⟩
            · exact ih cs2 hrec x hx2
    · rw [if_neg hθ] at h
      exact ih cs h x hx

theorem fuzzyMatch_conf (db : DB) (q : String) (θ : ℚ) (r : TResult)
    (h : fuzzyMatch db q θ = Except.ok (some r)) :
    0 ≤ r.confidence ∧ r.confidence ≤ 1 := by
  unfold fuzzyMatch at h
  cases hc : fuzzyCollect db q θ demoPhrases with
  | error e => simp [hc] at h
  | ok cs =>
    cases cs with
    | nil => simp [hc] at h
    | cons c l =>
      simp only [hc, Except.ok.injEq, Option.some.injEq] at h
      subst h
      have hmem : pickBest c l ∈ c :: l := by
        obtain ⟨l1, l2, heq, -, -⟩ := pickBest_split l c
        rw [heq]
        exact List.mem_append_right l1 (List.mem_cons_self _ _)
      obtain ⟨p, hp⟩ := fuzzyCollect_sims db q θ demoPhrases (c :: l) hc (pickBest c l) hmem
      have hb := simScore_mem_unit q p
      dsimp only
      rw [qmul_eq]
      constructor
      · apply mul_nonneg
        · rw [hp]
          exact hb.1
        · decide
      · calc (pickBest c l).similarity * mkRat 9 10 ≤ 1 * mkRat 9 10 := by
              apply mul_le_mul_of_nonneg_right
              · rw [hp]; exact hb.2
              · decide
          _ ≤ 1 := by rw [one_mul]; decide

theorem compoundParts_nonneg (db : DB) :
    ∀ (ps : List String) (ts : List String) (s : ℚ),
      compoundParts db ps = Except.ok (ts, s) → 0 ≤ s := by
  intro ps
  induction ps with
  | nil =>
    intro ts s h
    simp only [compoundParts, Except.ok.injEq, Prod.mk.injEq] at h
    rw [← h.2]
  | cons p rest ih =>
    intro ts s h
    simp only [compoundParts] at h
    cases hd : db p "banglish_to_english" with
    | error e => simp [hd] at h
    | ok o =>
      simp only [hd] at h
      cases hrec : compoundParts db rest with
      | error e => simp [hrec] at h
      | ok pr =>
        obtain ⟨ts2, c2⟩ := pr
        simp only [hrec] at h
        have hc2 := ih ts2 c2 hrec
        cases o with
        | some r =>
          simp only [Except.ok.injEq, Prod.mk.injEq] at h
          rw [← h.2, qadd_eq]
          linarith
        | none =>
          simp only [Except.ok.injEq, Prod.mk.injEq] at h
          rw [← h.2, qadd_eq]
          have h310 : (0:ℚ) ≤ mkRat 3 10 := by decide
          linarith

theorem compoundTry_conf (db : DB) (parts : String × String) (r : TResult)
    (h : compoundTry db parts = Except.ok (some r)) :
    0 ≤ r.confidence ∧ r.confidence ≤ 1 := by
  unfold compoundTry at h
  cases hp : compoundParts db [parts.1, parts.2] with
  | error e => simp [hp] at h
  | ok pr =>
    obtain ⟨ts, s⟩ := pr
    simp only [hp] at h
    by_cases he : ts.isEmpty
    · rw [if_pos he] at h
      simp at h
    · rw [if_neg he] at h
      simp only [Except.ok.injEq, Option.some.injEq] at h
      subst h
      have hs := compoundParts_nonneg db [parts.1, parts.2] ts s hp
      dsimp only
      constructor
      · apply le_min
        · rw [qmul_eq, qdiv_eq]
          apply mul_nonneg
          · apply div_nonneg hs
            norm_num
          · decide
        · decide
      · calc min (qmul (qdiv s 2) (mkRat 85 100)) (mkRat 9 10) ≤ mkRat 9 10 :=
              min_le_right _ _
          _ ≤ 1 := by decide

theorem compoundLoop_conf (db : DB) (q : String) (r : TResult) :
    ∀ rules : List CompoundRule,
      compoundLoop db q rules = Except.ok (some r) →
      0 ≤ r.confidence ∧ r.confidence ≤ 1 := by
  intro rules
  induction rules with
  | nil => intro h; simp [compoundLoop] at h
  | cons rule rest ih =>
    intro h
    simp only [compoundLoop] at h
    cases hm : rule.matchFn q with
    | none =>
      simp only [hm] at h
      exact ih h
    | some parts =>
      simp only [hm] at h
      cases ht : compoundTry db parts with
      | error e =>
        simp only [ht] at h
        exact ih h
      | ok o =>
        simp only [ht] at h
        cases o with
        | none => exact ih h
        | some r2 =>
          simp only [Except.ok.injEq, Option.some.injEq] at h
          subst h
          exact compoundTry_conf db parts r2 ht

theorem patternRules_conf_unit :
    ∀ rule ∈ patternRules, 0 ≤ rule.confidence ∧ rule.confidence ≤ 1 := by
  decide

theorem weightedWordByWord_conf (db : DB) (q : String) (r : TResult)
    (h : weightedWordByWord db q = Except.ok (some r)) :
    0 ≤ r.confidence ∧ r.confidence ≤ 1 := by
  simp only [weightedWordByWord] at h
  by_cases hw : (pySplit q).isEmpty
  · rw [if_pos hw] at h
    simp at h
  · rw [if_neg hw] at h
    cases hg : weightedGo db (pySplit q) with
    | error e => simp [hg] at h
    | ok pr =>
      obtain ⟨ts, n⟩ := pr
      simp only [hg] at h
      by_cases hn : 0 < n
      · rw [if_pos hn] at h
        simp only [Except.ok.injEq, Option.some.injEq] at h
        subst h
        dsimp only
        constructor
        · apply le_min
          · rw [qmul_eq, qdiv_eq]
            apply mul_nonneg
            · apply div_nonneg
              · positivity
              · positivity
            · decide
          · decide
        · calc min (qmul (qdiv (n : ℚ) (pySplit q).length) (mkRat 7 10)) (mkRat 85 100) ≤
                mkRat 85 100 := min_le_right _ _
            _ ≤ 1 := by decide
      · rw [if_neg hn] at h
        simp at h

theorem weightedGo_pure_isOk (f : String → String → Option LookupRes) :
    ∀ ws : List String, ∃ pr, weightedGo (pureDB f) ws = Except.ok pr := by
  intro ws
  induction ws with
  | nil => exact ⟨([], 0), rfl⟩
  | cons w rest ih =>
    obtain ⟨⟨ts, n⟩, hpr⟩ := ih
    cases hf : f w "banglish_to_english" with
    | some r => exact ⟨(r.english :: ts, n + 1), by simp [weightedGo, pureDB, hf, hpr]⟩
    | none => exact ⟨(w :: ts, n), by simp [weightedGo, pureDB, hf, hpr]⟩

theorem weightedWordByWord_pure_isOk (f : String → String → Option LookupRes)
    (q : String) :
    ∃ o, weightedWordByWord (pureDB f) q = Except.ok o := by
  simp only [weightedWordByWord]
  by_cases hw : (pySplit q).isEmpty
  · rw [if_pos hw]
    exact ⟨none, rfl⟩
  · rw [if_neg hw]
    obtain ⟨⟨ts, n⟩, hpr⟩ := weightedGo_pure_isOk f (pySplit q)
    rw [hpr]
    dsimp only
    by_cases hn : 0 < n
    · rw [if_pos hn]
      exact ⟨_, rfl⟩
    · rw [if_neg hn]
      exact ⟨none, rfl⟩

theorem forwardTail_pure_wf (f : String → String → Option LookupRes) (nq : String) :
    ∃ o, (match fuzzyMatch (pureDB f) nq (mkRat 4 5) with
      | Except.error e => Except.error e
      | Except.ok (some r) => Except.ok (some r)
      | Except.ok none =>
        match compoundWordSplit (pureDB f) nq with
        | Except.error e => Except.error e
        | Except.ok (some r) => Except.ok (some r)
        | Except.ok none =>
          match patternMatch (pureDB f) nq with
          | Except.error e => Except.error e
          | Except.ok (some r) => Except.ok (some r)
          | Except.ok none => weightedWordByWord (pureDB f) nq) = Except.ok o ∧
      ∀ r, o = some r → 0 ≤ r.confidence ∧ r.confidence ≤ 1 := by
  cases hfz : fuzzyMatch (pureDB f) nq (mkRat 4 5) with
  | error e =>
    rw [fuzzyMatch_pure] at hfz
    exact absurd hfz (by simp)
  | ok ofz =>
    cases ofz with
    | some rf =>
      exact ⟨some rf, rfl, by
        intro r hr
        simp only [Option.some.injEq] at hr
        subst hr
        exact fuzzyMatch_conf _ _ _ _ hfz⟩
    | none =>
      cases hcp : compoundWordSplit (pureDB f) nq with
      | error e =>
        simp only [compoundWordSplit] at hcp
        rw [compoundLoop_pure] at hcp
        exact absurd hcp (by simp)
      | ok ocp =>
        cases ocp with
        | some rc =>
          exact ⟨some rc, rfl, by
            intro r hr
            simp only [Option.some.injEq] at hr
            subst hr
            exact compoundLoop_conf _ _ _ compoundRules hcp⟩
        | none =>
          cases hpm : patternMatch (pureDB f) nq with
          | error e =>
            simp only [patternMatch] at hpm
            rw [patternLoop_pure] at hpm
            exact absurd hpm (by simp)
          | ok opm =>
            cases opm with
            | some rp =>
              exact ⟨some rp, rfl, by
                intro r hr
                simp only [Option.some.injEq] at hr
                subst hr
                obtain ⟨rule, hmem, -, hconf, -⟩ :=
                  patternLoop_spec _ _ _ patternRules hpm
                rw [hconf]
                exact patternRules_conf_unit rule hmem⟩
            | none =>
              obtain ⟨o, ho⟩ := weightedWordByWord_pure_isOk f nq
              refine ⟨o, ho, ?_⟩
              intro r hr
              subst hr
              exact weightedWordByWord_conf _ _ _ ho

theorem translateStages_pure_wf (f : String → String → Option LookupRes)
    (q d : String) :
    ∃ o, translateStages (pureDB f) q d = Except.ok o ∧
      ∀ r, o = some r → 0 ≤ r.confidence ∧ r.confidence ≤ 1 := by
  simp only [translateStages, pureDB]
  cases hex : f (normalizeSlang q) d with
  | some res =>
    dsimp only
    by_cases hdir : d = "banglish_to_english"
    · rw [if_pos hdir]
      refine ⟨_, rfl, ?_⟩
      intro r hr
      simp only [Option.some.injEq] at hr
      subst hr
      constructor <;> norm_num
    · rw [if_neg hdir]
      refine ⟨_, rfl, ?_⟩
      intro r hr
      simp only [Option.some.injEq] at hr
      subst hr
      constructor <;> norm_num
  | none =>
    dsimp only
    by_cases hpq : phoneticNormalize (normalizeSlang q) ≠ normalizeSlang q
    · rw [if_pos hpq]
      cases hph : f (phoneticNormalize (normalizeSlang q)) d with
      | some res =>
        dsimp only
        refine ⟨_, rfl, ?_⟩
        intro r hr
        simp only [Option.some.injEq] at hr
        subst hr
        dsimp only
        constructor <;> decide
      | none =>
        dsimp only
        by_cases hdir : d ≠ "banglish_to_english"
        · rw [if_pos hdir]
          exact ⟨none, rfl, by intro r hr; cases hr⟩
        · rw [if_neg hdir]
          exact forwardTail_pure_wf f (normalizeSlang q)
    · rw [if_neg hpq]
      dsimp only
      by_cases hdir : d ≠ "banglish_to_english"
      · rw [if_pos hdir]
        exact ⟨none, rfl, by intro r hr; cases hr⟩
      · rw [if_neg hdir]
        exact forwardTail_pure_wf f (normalizeSlang q)

/-- C6: against a pure collaborator the compound stage returns, for the first
rule in declaration order whose anchored pattern matches the whole query, the
two-part split where a part found by the dictionary contributes its translation
with weight `1.0` and an unfound part is kept as-is with weight `0.3`,
`confidence = min(0.9, (sum(weights)/2) * 0.85)` and the space-joined
translation; a rule whose processing throws is skipped with the remaining rules
still tried; and `none` is returned when no rule matches. -/
theorem c6_compound_stage :
    (∀ (f : String → String → Option LookupRes) (q : String),
      compoundWordSplit (pureDB f) q = Except.ok (compoundSpecFn f q)) ∧
    (∀ (db : DB) (q : String) (rule : CompoundRule) (rest : List CompoundRule)
        (parts : String × String),
      rule.matchFn q = some parts → compoundTry db parts = Except.error () →
      compoundLoop db q (rule :: rest) = compoundLoop db q rest) ∧
    (∀ (db : DB) (q : String), (∀ rule ∈ compoundRules, rule.matchFn q = none) →
      compoundWordSplit db q = Except.ok none) := by
  refine ⟨?_, ?_, ?_⟩
  · intro f q
    simp [compoundWordSplit, compoundSpecFn, compoundLoop_pure]
  · intro db q rule rest parts hm ht
    simp only [compoundLoop, hm, ht]
  · intro db q h
    exact compoundLoop_none db q compoundRules h

theorem c6_compound_stage_witness :
    compoundWordSplit (pureDB dummyLookup) "chotobari" =
      Except.ok (compoundSpecFn dummyLookup "chotobari") ∧
    compoundLoop throwingDB "chotobari"
        ({ matchFn := compoundMatch1, description := "house/building compounds" } :: []) =
      compoundLoop throwingDB "chotobari" [] ∧
    compoundWordSplit throwingDB "hello" = Except.ok none :=
  ⟨c6_compound_stage.1 dummyLookup "chotobari",
   c6_compound_stage.2.1 throwingDB "chotobari"
     { matchFn := compoundMatch1, description := "house/building compounds" } []
     ("choto", "bari") (by decide) (by decide),
   c6_compound_stage.2.2 throwingDB "hello" (by decide)⟩

/-- C4 counterexample: on `"ami bari korbo"` the first matching pattern rule is
`future_tense_korbo`, whose designated base phrase (capture group 2) is
`"bari"`, but the code always takes `match.group(1)` — here the pronoun marker
`"ami"`, which the dictionary resolves to `"I"` — so the code answers
`"I will I"` where the claimed behaviour yields `"I will home"`. -/
theorem c4_counterexample :
    patternMatch (pureDB dummyLookup) "ami bari korbo" =
      Except.ok (some { translation := "I will I", confidence := mkRat 82 100,
                        method := "pattern", pattern := some "future_tense_korbo" }) ∧
    patternSpecFn dummyLookup "ami bari korbo" =
      some { translation := "I will home", confidence := mkRat 82 100,
             method := "pattern", pattern := some "future_tense_korbo" } := by
  constructor
  · decide
  · decide

/-- C4 (amended): the pattern stage tries the rules in declaration order and,
on the first rule whose anchored pattern matches, takes capture group 1 as the
base phrase (not the group the rule's transform designates), resolves it via
the dictionary or else via word-by-word translation, applies the rule's
transform, and returns the rule's fixed confidence. -/
theorem c4_pattern_stage (f : String → String → Option LookupRes) (q : String) :
    patternMatch (pureDB f) q = Except.ok (patternG1Fn f q) := by
  simp [patternMatch, patternG1Fn, patternLoop_pure]

/-- C5: the fuzzy stage.  The code's DP distance is the textbook Levenshtein
distance; against a pure collaborator the stage returns exactly the
specification function (reference phrases whose similarity
`1 - d / max(len(query), len(p))` clears the threshold and that resolve via
the dictionary, the best by similarity, with `confidence = similarity * 0.9`
and method `fuzzy`); the scan replaces only on a strictly larger similarity, so
ties are broken by earliest position in the reference index; and `none` comes
back when no reference phrase clears the threshold. -/
theorem c5_fuzzy_stage :
    (∀ s1 s2 : String, levenshteinS s1 s2 = rlev s1.toList s2.toList) ∧
    (∀ (f : String → String → Option LookupRes) (q : String) (θ : ℚ),
      fuzzyMatch (pureDB f) q θ = Except.ok (fuzzySpecFn f q θ)) ∧
    (∀ (c : FuzzyCand) (l : List FuzzyCand),
      ∃ l1 l2, c :: l = l1 ++ pickBest c l :: l2 ∧
        (∀ x ∈ l1, x.similarity < (pickBest c l).similarity) ∧
        (∀ x ∈ l2, x.similarity ≤ (pickBest c l).similarity)) ∧
    (∀ (f : String → String → Option LookupRes) (q : String) (θ : ℚ),
      (∀ p ∈ demoPhrases, ¬ θ ≤ simScore q p) →
      fuzzyMatch (pureDB f) q θ = Except.ok none) := by
  refine ⟨levenshteinS_eq_rlev, fuzzyMatch_pure, fun c l => pickBest_split l c, ?_⟩
  intro f q θ h
  rw [fuzzyMatch_pure]
  have hnil : fuzzySpecCands f q θ = [] := by
    apply List.filterMap_eq_nil_iff.mpr
    intro p hp
    simp [h p hp]
  simp [fuzzySpecFn, hnil]

theorem c5_fuzzy_stage_witness :
    fuzzyMatch (pureDB dummyLookup) "kemon asho" (mkRat 4 5) =
      Except.ok (fuzzySpecFn dummyLookup "kemon asho" (mkRat 4 5)) ∧
    fuzzyMatch (pureDB dummyLookup) "xyzzy" 2 = Except.ok none :=
  ⟨c5_fuzzy_stage.2.1 dummyLookup "kemon asho" (mkRat 4 5),
   c5_fuzzy_stage.2.2.2 dummyLookup "xyzzy" 2 (by decide)⟩

/-- C2: with a pure collaborator and a cache whose entries carry confidences in
`[0, 1]`, `translate` never raises and produces exactly one answer: either
`none` or a single result whose confidence lies in `[0, 1]` and whose method is
one of `adaptive_cache`, `exact`, `phonetic`, `fuzzy`, `compound`, `pattern`,
`word_by_word`. -/
theorem c2_result_wellformed (c : Cache) (f : String → String → Option LookupRes)
    (q d : String)
    (hc : ∀ k e, dictGet c k = some e → 0 ≤ e.confidence ∧ e.confidence ≤ 1) :
    ∃ o, translate c (pureDB f) q d = Except.ok o ∧
      ∀ r, o = some r →
        (0 ≤ r.confidence ∧ r.confidence ≤ 1) ∧
        (r.method = "adaptive_cache" ∨ r.method = "exact" ∨ r.method = "phonetic" ∨
         r.method = "fuzzy" ∨ r.method = "compound" ∨ r.method = "pattern" ∨
         r.method = "word_by_word") := by
  simp only [translate, translateS]
  by_cases hg : q = "" ∨ pyStrip q = ""
  · rw [if_pos hg]
    exact ⟨none, rfl, by intro r hr; cases hr⟩
  · rw [if_neg hg]
    cases hch : dictGet c (mkKey (pyStrip q) d) with
    | some e =>
      dsimp only
      refine ⟨some (cacheHitResult e), rfl, ?_⟩
      intro r hr
      simp only [Option.some.injEq] at hr
      subst hr
      exact ⟨hc _ _ hch, Or.inl rfl⟩
    | none =>
      dsimp only
      obtain ⟨o, ho, hbd⟩ := translateStages_pure_wf f (pyStrip q) d
      refine ⟨o, ho, ?_⟩
      intro r hr
      refine ⟨hbd r hr, ?_⟩
      subst hr
      rcases translateStages_cases (pureDB f) (pyStrip q) d r ho with h1 | h2 | h3
      · exact Or.inr (Or.inl h1)
      · exact Or.inr (Or.inr (Or.inl h2.1))
      · rcases h3.2 with hm | hm | hm | hm
        · exact Or.inr (Or.inr (Or.inr (Or.inl hm)))
        · exact Or.inr (Or.inr (Or.inr (Or.inr (Or.inl hm))))
        · exact Or.inr (Or.inr (Or.inr (Or.inr (Or.inr (Or.inl hm)))))
        · exact Or.inr (Or.inr (Or.inr (Or.inr (Or.inr (Or.inr hm)))))

theorem c2_result_wellformed_witness :
    ∃ o, translate [] (pureDB dummyLookup) "hello" "banglish_to_english" = Except.ok o ∧
      ∀ r, o = some r →
        (0 ≤ r.confidence ∧ r.confidence ≤ 1) ∧
        (r.method = "adaptive_cache" ∨ r.method = "exact" ∨ r.method = "phonetic" ∨
         r.method = "fuzzy" ∨ r.method = "compound" ∨ r.method = "pattern" ∨
         r.method = "word_by_word") :=
  c2_result_wellformed [] dummyLookup "hello" "banglish_to_english"
    (by intro k e h; cases h)
